import Mathlib

/-!
# go/buildutil: ContainingPackage and its path primitives

A shallow embedding of `src/go/buildutil/util.go`.

Go strings are modelled as lists of characters (`Str`); `byteLen` gives the
length Go's `len` reports.  The purely lexical functions `Clean`, `ToSlash`,
`FromSlash` and with them `hasSubdir` and `HasSubdir` take the host's
`filepath.Separator` as the parameter `sep` and describe paths with the empty
volume name; with `sep = '/'` they are the functions of a Unix host.
`filepath.Dir`, `filepath.Join`, `filepath.IsAbs` and everything built on them
(the upward search for go.mod and `ContainingPackage` itself) are modelled for
a Unix host only.

The state of the operating-system file system is an explicit value
(`FileSystem`); the build context is a record of optional hooks (`Context`).
-/

namespace Buildutil

set_option autoImplicit false

/-- Go strings, as lists of characters. -/
abbrev Str := List Char

/-! ## Standard-library path functions used by util.go -/

/-- The `os.IsPathSeparator` predicate of a host whose `filepath.Separator` is `sep`. -/
def IsPathSeparator (sep c : Char) : Bool := c == sep || c == '/'

/-- The maximal runs of characters of `s` between the characters satisfying
`isSep` (empty runs included). -/
def splitBy (isSep : Char → Bool) : Str → List Str
  | [] => [[]]
  | c :: cs =>
    if isSep c then [] :: splitBy isSep cs
    else match splitBy isSep cs with
      | [] => [[c]]
      | e :: es => (c :: e) :: es

/-- Path elements of `path`: the runs between separators. -/
def splitElems (sep : Char) (path : Str) : List Str :=
  splitBy (IsPathSeparator sep) path

/-- The `strings.Join` function with a one-character separator. -/
def joinElems (sep : Char) : List Str → Str
  | [] => []
  | [e] => e
  | e :: es => e ++ sep :: joinElems sep es

/-- One round of the element loop of `filepath.Clean`.  `out` is the output
buffer as a stack of elements, last written element first.  Empty and `.`
elements are skipped; `..` removes the last written element when there is one
that is not itself `..` (the buffer is longer than the `dotdot` mark), is
appended when the path is not rooted, and is dropped at the root; any other
element is appended. -/
def cleanStep (rooted : Bool) (out : List Str) (e : Str) : List Str :=
  if e = [] then out
  else if e = ['.'] then out
  else if e = ['.', '.'] then
    match out with
    | [] => if rooted then [] else [e]
    | top :: rest =>
      if top = ['.', '.'] then (if rooted then out else e :: out) else rest
  else e :: out

/-- Whether the path begins with a separator. -/
def isRooted (sep : Char) : Str → Bool
  | [] => false
  | c :: _ => IsPathSeparator sep c

/-- The element stack `filepath.Clean` ends with, last element first. -/
def cleanStack (sep : Char) (path : Str) : List Str :=
  (splitElems sep path).foldl (cleanStep (isRooted sep path)) []

/-- The `filepath.Clean` function for a path with the empty volume name: the
shortest path name equivalent to `path` by purely lexical processing. -/
def Clean (sep : Char) (path : Str) : Str :=
  let body := joinElems sep (cleanStack sep path).reverse
  if isRooted sep path then sep :: body
  else if body = [] then ['.'] else body

/-- The `filepath.ToSlash` function: each separator replaced by a slash. -/
def ToSlash (sep : Char) (path : Str) : Str :=
  if sep = '/' then path else path.map (fun c => if c = sep then '/' else c)

/-- The `filepath.FromSlash` function: each slash replaced by a separator. -/
def FromSlash (sep : Char) (path : Str) : Str :=
  if sep = '/' then path else path.map (fun c => if c = '/' then sep else c)

/-- The part of `path` up to and including its last separator (empty when it
has none): the first result of `path.Split`, and the slice `filepath.Dir` cleans. -/
def dirPart (isSep : Char → Bool) : Str → Str
  | [] => []
  | c :: cs =>
    match dirPart isSep cs with
    | [] => if isSep c then [c] else []
    | d :: ds => c :: d :: ds

/-- The `filepath.Dir` function of a Unix host: all but the last element of
`path`, cleaned. -/
def Dir (path : Str) : Str :=
  Clean '/' (dirPart (IsPathSeparator '/') path)

/-- The `path.Dir` function of package `path`, whose only separator is the slash. -/
def pathDir (path : Str) : Str :=
  Clean '/' (dirPart (fun c => c == '/') path)

/-- The `filepath.Join` function of a Unix host: the elements from the first
non-empty one on, joined by slashes and cleaned; the empty string when all are
empty. -/
def Join (elem : List Str) : Str :=
  match elem.dropWhile (fun e => e.isEmpty) with
  | [] => []
  | es => Clean '/' (joinElems '/' es)

/-- The `filepath.IsAbs` function of a Unix host: the path begins with a slash. -/
def IsAbs (path : Str) : Bool := ['/'].isPrefixOf path

/-- The number of bytes of a character in UTF-8. -/
def utf8Size (c : Char) : Nat :=
  let n := c.toNat
  if n < 0x80 then 1 else if n < 0x800 then 2 else if n < 0x10000 then 3 else 4

/-- The length of a Go string in bytes, as the builtin `len` reports it. -/
def byteLen (s : Str) : Nat := (s.map utf8Size).sum

/-! ## hasSubdir -/

/-- The `hasSubdir` function of util.go:125. -/
def hasSubdir (sep : Char) (root dir : Str) : Str × Bool :=
  let root := Clean sep root
  let root := if [sep].isSuffixOf root then root else root ++ [sep]
  let dir := Clean sep dir
  if !(root.isPrefixOf dir) then ([], false)
  else (ToSlash sep (dir.drop root.length), true)

/-! ## File systems and build contexts -/

/-- The outcome of `os.Stat`: the file is there, the error satisfies
`os.IsNotExist`, or the call fails with another error (a path element that is
not a directory, a directory that may not be searched). -/
inductive StatResult where
  | found
  | notExist
  | failed
deriving DecidableEq, Repr

/-- The state of the operating-system file system, as far as util.go observes
it.  `stat p` is the outcome of `os.Stat(p)`.  `openFile p` is the outcome of
`os.Open(p)` and of reading the file: the message of the open error, or the
bytes read together with the message of the read error that ended the reading,
`none` when the end of the file was reached.  `EvalSymlinks p` is the result of
`filepath.EvalSymlinks(p)` with its error discarded, the empty string when the
resolution fails. -/
structure FileSystem where
  stat : Str → StatResult
  openFile : Str → Except Str (Str × Option Str)
  EvalSymlinks : Str → Str

/-- The fields of `build.Package` that `build.FindOnly` fills. -/
structure Package where
  ImportPath : Str
  Dir : Str
  Name : Str
deriving DecidableEq, Repr

/-- The `build.Context` record, as far as util.go uses it.  The optional fields
are the file-system hooks, `none` for a nil hook.  `SrcDirs` and `Import` are
the methods of package `go/build`; `Import path srcDir` stands for
`ctxt.Import(path, srcDir, build.FindOnly)` and gives Go's result pair. -/
structure Context where
  HasSubdir : Option (Str → Str → Str × Bool)
  OpenFile : Option (Str → Except Str Str)
  IsAbsPath : Option (Str → Bool)
  JoinPath : Option (List Str → Str)
  IsDir : Option (Str → Bool)
  ReadDir : Option (Str → Except Str (List Str))
  SrcDirs : List Str
  Import : Str → Str → Option Package × Option Str

/-- The `IsAbsPath` function of util.go:166. -/
def IsAbsPath (ctxt : Context) (path : Str) : Bool :=
  match ctxt.IsAbsPath with
  | some f => f path
  | none => IsAbs path

/-- The `JoinPath` function of util.go:175. -/
def JoinPath (ctxt : Context) (path : List Str) : Str :=
  match ctxt.JoinPath with
  | some f => f path
  | none => Join path

/-- The `HasSubdir` function of util.go:100. -/
def HasSubdir (sep : Char) (ctxt : Context) (fs : FileSystem) (root dir : Str) : Str × Bool :=
  match ctxt.HasSubdir with
  | some f => f root dir
  | none =>
    let r := hasSubdir sep root dir
    if r.2 then r
    else
      let rootSym := fs.EvalSymlinks root
      let dirSym := fs.EvalSymlinks dir
      let r := hasSubdir sep rootSym dir
      if r.2 then r
      else
        let r := hasSubdir sep root dirSym
        if r.2 then r
        else hasSubdir sep rootSym dirSym

/-! ## The go.mod fallback -/

/-- The loop of `findGomodFile` (util.go:234), run for at most `fuel` rounds;
`none` when the rounds are used up before the loop ends.  The result is the
value of the variable `dir` when the function returns, followed by the pair the
function returns. -/
def findGomodLoop (fs : FileSystem) : Nat → Str → Option (Str × Str × Bool)
  | 0, dir => if byteLen dir > 1 then none else some (dir, [], false)
  | fuel + 1, dir =>
    if byteLen dir > 1 then
      let parent := Dir dir
      let gomodFile := Join [parent, "go.mod".toList]
      if fs.stat gomodFile = StatResult.notExist then findGomodLoop fs fuel parent
      else some (dir, gomodFile, true)
    else some (dir, [], false)

/-- The `findGomodFile` function of util.go:229, with as many rounds as `aDir`
has bytes. -/
def findGomodFile (fs : FileSystem) (aDir : Str) : Option (Str × Bool) :=
  (findGomodLoop fs (byteLen aDir) aDir).map (fun r => r.2)

/-- The `unicode.IsSpace` predicate. -/
def isSpace (c : Char) : Bool :=
  let n := c.toNat
  n == 0x20 || (0x09 ≤ n && n ≤ 0x0D) || n == 0x85 || n == 0xA0 || n == 0x1680 ||
  (0x2000 ≤ n && n ≤ 0x200A) || n == 0x2028 || n == 0x2029 || n == 0x202F ||
  n == 0x205F || n == 0x3000

/-- The `strings.Fields` function: the maximal runs of non-space characters. -/
def Fields (s : Str) : List Str :=
  (splitBy isSpace s).filter (fun w => !w.isEmpty)

/-- The text before the first newline. -/
def untilNewline : Str → Str
  | [] => []
  | c :: cs => if c = '\n' then [] else c :: untilNewline cs

/-- The `dropCR` helper of `bufio.ScanLines`: one trailing carriage return removed. -/
def dropCR (s : Str) : Str :=
  if s.getLast? = some '\r' then s.dropLast else s

/-- The `bufio.MaxScanTokenSize` constant, the size of a scanner's buffer. -/
def MaxScanTokenSize : Nat := 64 * 1024

/-- The first token of a `bufio.Scanner` with the default line splitter over
the bytes `content`, when the first `Scan` returns true: the text before the
first newline without its trailing carriage return.  `Scan` returns false when
nothing was read, and when the buffer fills up before a newline or the end of
the input is seen. -/
def firstLine (content : Str) : Option Str :=
  if content = [] then none
  else if MaxScanTokenSize ≤ byteLen (untilNewline content) then none
  else some (dropCR (untilNewline content))

/-- The text of `scanner.Err()` under the verb `%v` after a first `Scan` that
returned false: when nothing was read, the read error, nil at the end of the
file; else `ErrTooLong`. -/
def scanErr (content : Str) (readErr : Option Str) : Str :=
  if content = [] then readErr.getD "<nil>".toList
  else "bufio.Scanner: token too long".toList

/-- The part of `parseModuleName` (util.go:254-269) after the file is opened,
over the bytes read and the read error: Go's result pair, the name and the
error (`none` for nil). -/
def parseFirstLine (content : Str) (readErr : Option Str) : Str × Option Str :=
  match firstLine content with
  | none =>
    ([], some ("failed to read go.mod file first line: ".toList ++ scanErr content readErr))
  | some line =>
    if !("module".toList.isPrefixOf line) then ([], some "invalid go.mod file".toList)
    else
      let words := Fields line
      if words.length ≠ 2 then ([], some "invalid module entry in go.mod file".toList)
      else (words.getD 1 [], none)

/-- The `parseModuleName` function of util.go:247. -/
def parseModuleName (fs : FileSystem) (gomodPath : Str) : Str × Option Str :=
  match fs.openFile gomodPath with
  | .error err => ([], some err)
  | .ok (content, readErr) => parseFirstLine content readErr

/-! ## ContainingPackage -/

/-- What a run of `ContainingPackage` ends with: the call of the backend lookup
`ctxt.Import(path, srcDir, build.FindOnly)` whose result it returns, or the
error it returns with a nil package. -/
inductive Outcome where
  | callImport (path srcDir : Str)
  | fail (msg : Str)
deriving DecidableEq, Repr

/-- The source-root loop of `ContainingPackage` (util.go:73-78): the import path
of the first root for which `HasSubdir` succeeds. -/
def srcRootLoop (sep : Char) (ctxt : Context) (fs : FileSystem) (dirSlash : Str) :
    List Str → Option Str
  | [] => none
  | srcdir :: rest =>
    let srcdirSlash := ToSlash sep srcdir ++ ['/']
    let r := HasSubdir sep ctxt fs srcdirSlash dirSlash
    if r.2 then some r.1 else srcRootLoop sep ctxt fs dirSlash rest

/-- The go.mod fallback of `ContainingPackage` (util.go:82-91); `none` when the
upward search does not finish. -/
def gomodFallback (fs : FileSystem) (filename : Str) : Option Outcome :=
  match findGomodFile fs filename with
  | none => none
  | some (gomodFile, ok) =>
    if !ok then some (.fail "go module fallback: failed to find go.mod".toList)
    else
      match parseModuleName fs gomodFile with
      | (_, some err) =>
        some (.fail ("go module fallback: failed to parse module name: ".toList ++ err))
      | (moduleName, none) => some (.callImport moduleName (Dir gomodFile))

/-- The first statement of `ContainingPackage` (util.go:58-60): a filename that
is not absolute is joined to the working directory. -/
def resolveFilename (ctxt : Context) (dir filename : Str) : Str :=
  if !IsAbsPath ctxt filename then JoinPath ctxt [dir, filename] else filename

/-- The control flow of `ContainingPackage` (util.go:57) up to its return
statement; `none` when the run does not finish. -/
def containingPackageOutcome (ctxt : Context) (fs : FileSystem)
    (dir filename : Str) : Option Outcome :=
  let filename := resolveFilename ctxt dir filename
  let dirSlash := pathDir (ToSlash '/' filename) ++ ['/']
  match srcRootLoop '/' ctxt fs dirSlash ctxt.SrcDirs with
  | some importPath => some (.callImport importPath dir)
  | none => gomodFallback fs filename

/-- The `ContainingPackage` function of util.go:57: Go's result pair, or `none`
when the run does not finish. -/
def ContainingPackage (ctxt : Context) (fs : FileSystem)
    (dir filename : Str) : Option (Option Package × Option Str) :=
  match containingPackageOutcome ctxt fs dir filename with
  | none => none
  | some (.callImport path srcDir) => some (ctxt.Import path srcDir)
  | some (.fail msg) => some (none, some msg)

/-! ## Predicates used in the statements -/

/-- A plain path element: not empty, not `.`, not `..`, and free of separators. -/
def IsName (isSep : Char → Bool) (e : Str) : Prop :=
  e ≠ [] ∧ e ≠ ['.'] ∧ e ≠ ['.', '.'] ∧ ∀ c ∈ e, isSep c = false

instance (isSep : Char → Bool) (e : Str) : Decidable (IsName isSep e) := by
  unfold IsName
  infer_instance

/-- The shape of the output stack of `filepath.Clean` (last element first):
plain names on top of a run of `..` elements, the run being empty for a rooted
path. -/
def GoodStack (isSep : Char → Bool) (rooted : Bool) : List Str → Prop
  | [] => True
  | e :: rest =>
    (IsName isSep e ∧ GoodStack isSep rooted rest) ∨
    (e = ['.', '.'] ∧ rooted = false ∧ ∀ x ∈ rest, x = ['.', '.'])

/-- The root as `hasSubdir` compares it (util.go:127-130): cleaned, with one
separator appended unless it already ends in one. -/
def rootWithSep (sep : Char) (root : Str) : Str :=
  if [sep].isSuffixOf (Clean sep root) then Clean sep root else Clean sep root ++ [sep]

/-- A build context without file-system hooks, as `build.Default` has none. -/
def plainContext (srcDirs : List Str) (imp : Str → Str → Option Package × Option Str) :
    Context :=
  ⟨none, none, none, none, none, none, srcDirs, imp⟩

/-- A backend lookup that finds every package: the descriptor carries the import
path and the search base it was asked with. -/
def echoImport (path srcDir : Str) : Option Package × Option Str :=
  (some ⟨path, srcDir, []⟩, none)

/-- The file system of the symlink cases of `TestContainingPackage`
(util_test.go:55-74): `/tmp/go/src` is a symbolic link to `/gopath/src`, and
every path resolves. -/
def symlinkTestFS : FileSystem where
  stat := fun _ => StatResult.notExist
  openFile := fun _ => .error "no such file or directory".toList
  EvalSymlinks := fun p =>
    if "/tmp/go/src".toList.isPrefixOf p then Clean '/' ("/gopath/src".toList ++ p.drop 11)
    else Clean '/' p

/-- A file system in which `/t/l` is a symbolic link to its parent directory
`/t`, and every path resolves. -/
def nestedLinkFS : FileSystem where
  stat := fun _ => StatResult.notExist
  openFile := fun _ => .error "no such file or directory".toList
  EvalSymlinks := fun p =>
    if "/t/l/".toList.isPrefixOf p then Clean '/' ("/t/".toList ++ p.drop 5)
    else Clean '/' p

/-- The total size in bytes of a list of path elements, one separator counted
with each. -/
def elemsWeight (es : List Str) : Nat := (es.map (fun e => byteLen e + 1)).sum

/-- The directory the loop of `findGomodFile` holds after `n` rounds in which no
go.mod was found: the `n`-th iterate of `filepath.Dir`. -/
def ancestorDir : Nat → Str → Str
  | 0, dir => dir
  | n + 1, dir => ancestorDir n (Dir dir)

/-- A file system in which nothing exists and no path resolves. -/
def emptyFS : FileSystem where
  stat := fun _ => StatResult.notExist
  openFile := fun _ => .error "no such file or directory".toList
  EvalSymlinks := fun _ => []

/-- The file system of `TestContainingPackageInGoModule` (util_test.go:93): the
directory `/tmp/hello` holds a go.mod declaring `golang.org/examples/hello`
(here followed by further lines), the file `hello.go`, and the directory
`internal` with a second `hello.go`. -/
def gomodTestFS : FileSystem where
  stat := fun p =>
    if ["/".toList, "/tmp".toList, "/tmp/hello".toList, "/tmp/hello/go.mod".toList,
       "/tmp/hello/hello.go".toList, "/tmp/hello/internal".toList,
       "/tmp/hello/internal/hello.go".toList].contains p then StatResult.found
    else StatResult.notExist
  openFile := fun p =>
    if p = "/tmp/hello/go.mod".toList then
      .ok ("module golang.org/examples/hello\n\ngo 1.12\n".toList, none)
    else .error "no such file or directory".toList
  EvalSymlinks := fun p => Clean '/' p

/-- A file system in which `/a/b` is a regular file: `os.Stat` of
`/a/b/go.mod` fails because `/a/b` is not a directory, and there is no go.mod
anywhere. -/
def notDirFS : FileSystem where
  stat := fun p =>
    if ["/".toList, "/a".toList, "/a/b".toList].contains p then StatResult.found
    else if p = "/a/b/go.mod".toList then StatResult.failed
    else StatResult.notExist
  openFile := fun p =>
    if p = "/a/b/go.mod".toList then .error "open /a/b/go.mod: not a directory".toList
    else .error "no such file or directory".toList
  EvalSymlinks := fun p => Clean '/' p

/-- The file system `notDirFS` with a go.mod in `/a` declaring the module
`example.com/m`. -/
def notDirModuleFS : FileSystem where
  stat := fun p =>
    if ["/".toList, "/a".toList, "/a/b".toList, "/a/go.mod".toList].contains p then
      StatResult.found
    else if p = "/a/b/go.mod".toList then StatResult.failed
    else StatResult.notExist
  openFile := fun p =>
    if p = "/a/go.mod".toList then .ok ("module example.com/m\n".toList, none)
    else if p = "/a/b/go.mod".toList then .error "open /a/b/go.mod: not a directory".toList
    else .error "no such file or directory".toList
  EvalSymlinks := fun p => Clean '/' p

/-- A file system whose root directory holds a go.mod declaring the module
`example.com/m`. -/
def rootModuleFS : FileSystem where
  stat := fun p =>
    if ["/".toList, "/go.mod".toList].contains p then StatResult.found
    else StatResult.notExist
  openFile := fun p =>
    if p = "/go.mod".toList then .ok ("module example.com/m\n".toList, none)
    else .error "no such file or directory".toList
  EvalSymlinks := fun p => Clean '/' p

/-- A go.mod of one line, `module` followed by a name of 65536 letters. -/
def longLine : Str := "module".toList ++ ' ' :: List.replicate 65536 'a'

/-- A file system in which every file opens with the content `longLine`. -/
def longLineFS : FileSystem where
  stat := fun _ => StatResult.found
  openFile := fun _ => .ok (longLine, none)
  EvalSymlinks := fun p => Clean '/' p

/-- A build context whose file-system hooks are all set, describing a virtual
file system without source roots. -/
def hookedContext : Context where
  HasSubdir := some (fun _ _ => ([], false))
  OpenFile := some (fun _ => .error "no such file or directory".toList)
  IsAbsPath := some IsAbs
  JoinPath := some Join
  IsDir := some (fun _ => false)
  ReadDir := some (fun _ => .error "no such file or directory".toList)
  SrcDirs := []
  Import := echoImport

/-! ## The path functions on the cases of the standard library's tests -/

/-- The element-wise `Clean` agrees with `filepath.Clean` on the cases of the
standard library's test table. -/
theorem Clean_table :
    [("abc", "abc"), ("abc/def", "abc/def"), ("a/b/c", "a/b/c"), (".", "."), ("..", ".."),
     ("../..", "../.."), ("../../abc", "../../abc"), ("/abc", "/abc"), ("/", "/"), ("", "."),
     ("abc/", "abc"), ("abc/def/", "abc/def"), ("a/b/c/", "a/b/c"), ("./", "."), ("../", ".."),
     ("../../", "../.."), ("/abc/", "/abc"), ("abc//def//ghi", "abc/def/ghi"),
     ("//abc", "/abc"), ("///abc", "/abc"), ("//abc//", "/abc"), ("abc//", "abc"),
     ("abc/./def", "abc/def"), ("/./abc/def", "/abc/def"), ("abc/.", "abc"),
     ("abc/def/ghi/../jkl", "abc/def/jkl"), ("abc/def/../ghi/../jkl", "abc/jkl"),
     ("abc/def/..", "abc"), ("abc/def/../..", "."), ("/abc/def/../..", "/"),
     ("abc/def/../../..", ".."), ("/abc/def/../../..", "/"),
     ("abc/def/../../../ghi/jkl/../../../mno", "../../mno"), ("/../abc", "/abc"),
     ("abc/./../def", "def"), ("abc//./../def", "def"),
     ("abc/../../././../def", "../../def")].all
      (fun t => Clean '/' t.1.toList == t.2.toList) = true := by
  decide

/-- The functions `filepath.Dir` and `filepath.Join` on cases of the standard
library's test tables. -/
theorem Dir_Join_table :
    [("", "."), (".", "."), ("/.", "/"), ("/", "/"), ("////", "/"), ("/foo", "/"),
     ("x/", "x"), ("abc", "."), ("abc/def", "abc"), ("a/b/.x", "a/b"), ("a/b/c.", "a/b"),
     ("a/b/c.x", "a/b")].all (fun t => Dir t.1.toList == t.2.toList) = true ∧
    Join ["a".toList, "b".toList] = "a/b".toList ∧
    Join ["a".toList, []] = "a".toList ∧
    Join [[], "b".toList] = "b".toList ∧
    Join ["/".toList, "a".toList] = "/a".toList ∧
    Join ["a/".toList, "b".toList] = "a/b".toList ∧
    Join [[], []] = [] := by
  decide

/-! ## Elements and separators -/

theorem IsPathSeparator_self (sep : Char) : IsPathSeparator sep sep = true := by
  simp [IsPathSeparator]

theorem IsPathSeparator_slash (sep : Char) : IsPathSeparator sep '/' = true := by
  simp [IsPathSeparator]

theorem splitBy_ne_nil (isSep : Char → Bool) (s : Str) : splitBy isSep s ≠ [] := by
  cases s with
  | nil => simp [splitBy]
  | cons c cs =>
    unfold splitBy
    split
    · simp
    · split <;> simp

theorem splitBy_cons_sep (isSep : Char → Bool) (c : Char) (cs : Str) (hc : isSep c = true) :
    splitBy isSep (c :: cs) = [] :: splitBy isSep cs := by
  simp [splitBy, hc]

theorem splitBy_cons_other (isSep : Char → Bool) (c : Char) (cs : Str) (hc : isSep c = false) :
    ∃ e es, splitBy isSep cs = e :: es ∧ splitBy isSep (c :: cs) = (c :: e) :: es := by
  cases h : splitBy isSep cs with
  | nil => exact absurd h (splitBy_ne_nil isSep cs)
  | cons e es => exact ⟨e, es, rfl, by simp [splitBy, hc, h]⟩

theorem splitBy_noSep (isSep : Char → Bool) (s : Str) :
    ∀ e ∈ splitBy isSep s, ∀ c ∈ e, isSep c = false := by
  induction s with
  | nil => simp [splitBy]
  | cons c cs ih =>
    by_cases hc : isSep c = true
    · rw [splitBy_cons_sep isSep c cs hc]
      intro e he
      rcases List.mem_cons.1 he with rfl | he
      · simp
      · exact ih e he
    · have hc' : isSep c = false := by simpa using hc
      obtain ⟨e, es, h1, h2⟩ := splitBy_cons_other isSep c cs hc'
      rw [h2]
      rw [h1] at ih
      intro x hx
      rcases List.mem_cons.1 hx with rfl | hx
      · intro d hd
        rcases List.mem_cons.1 hd with rfl | hd
        · exact hc'
        · exact ih e (List.mem_cons_self _ _) d hd
      · exact ih x (List.mem_cons_of_mem _ hx)

theorem splitBy_of_noSep (isSep : Char → Bool) (e : Str) (h : ∀ c ∈ e, isSep c = false) :
    splitBy isSep e = [e] := by
  induction e with
  | nil => simp [splitBy]
  | cons c cs ih =>
    have hc : isSep c = false := h c (List.mem_cons_self _ _)
    have := ih (fun d hd => h d (List.mem_cons_of_mem _ hd))
    simp [splitBy, hc, this]

theorem splitBy_append_sep (isSep : Char → Bool) (a : Str) (c : Char) (b : Str)
    (hc : isSep c = true) :
    splitBy isSep (a ++ c :: b) = splitBy isSep a ++ splitBy isSep b := by
  induction a with
  | nil => simp [splitBy, hc]
  | cons x xs ih =>
    by_cases hx : isSep x = true
    · simp [splitBy, hx, ih]
    · have hx' : isSep x = false := by simpa using hx
      obtain ⟨e, es, h1, h2⟩ := splitBy_cons_other isSep x xs hx'
      have h3 : splitBy isSep (x :: (xs ++ c :: b)) = (x :: e) :: (es ++ splitBy isSep b) := by
        simp [splitBy, hx', ih, h1]
      simpa [h2] using h3

theorem splitBy_joinElems (isSep : Char → Bool) (sep : Char) (hsep : isSep sep = true)
    (es : List Str) (hne : es ≠ []) (h : ∀ e ∈ es, ∀ c ∈ e, isSep c = false) :
    splitBy isSep (joinElems sep es) = es := by
  induction es with
  | nil => exact absurd rfl hne
  | cons e rest ih =>
    cases rest with
    | nil => simpa [joinElems] using splitBy_of_noSep isSep e (h e (List.mem_cons_self _ _))
    | cons e2 rest2 =>
      have h1 := ih (by simp) (fun x hx => h x (List.mem_cons_of_mem _ hx))
      simp only [joinElems]
      rw [splitBy_append_sep isSep e sep _ hsep, h1,
        splitBy_of_noSep isSep e (h e (List.mem_cons_self _ _))]
      rfl

theorem joinElems_cons_cons (sep : Char) (e e2 : Str) (es : List Str) :
    joinElems sep (e :: e2 :: es) = e ++ sep :: joinElems sep (e2 :: es) := rfl

theorem joinElems_append (sep : Char) (as bs : List Str) (ha : as ≠ []) (hb : bs ≠ []) :
    joinElems sep (as ++ bs) = joinElems sep as ++ sep :: joinElems sep bs := by
  induction as with
  | nil => exact absurd rfl ha
  | cons a rest ih =>
    cases rest with
    | nil =>
      cases bs with
      | nil => exact absurd rfl hb
      | cons b bs => simp [joinElems]
    | cons a2 rest2 =>
      have := ih (by simp)
      simp only [List.cons_append, joinElems_cons_cons] at this ⊢
      rw [this]
      simp

/-! ## The element loop of Clean -/

theorem cleanStep_name (isSep : Char → Bool) (rooted : Bool) (out : List Str) (e : Str)
    (he : IsName isSep e) : cleanStep rooted out e = e :: out := by
  obtain ⟨h1, h2, h3, _⟩ := he
  simp [cleanStep, h1, h2, h3]

theorem cleanStep_nil (rooted : Bool) (out : List Str) : cleanStep rooted out [] = out := by
  simp [cleanStep]

theorem GoodStack_dotdots (isSep : Char → Bool) (l : List Str)
    (h : ∀ x ∈ l, x = ['.', '.']) : GoodStack isSep false l := by
  induction l with
  | nil => trivial
  | cons x xs _ =>
    exact Or.inr ⟨h x (List.mem_cons_self _ _), rfl,
      fun y hy => h y (List.mem_cons_of_mem _ hy)⟩

theorem cleanStep_good (isSep : Char → Bool) (rooted : Bool) (out : List Str) (e : Str)
    (he : ∀ c ∈ e, isSep c = false) (hout : GoodStack isSep rooted out) :
    GoodStack isSep rooted (cleanStep rooted out e) := by
  unfold cleanStep
  split
  · exact hout
  · split
    · exact hout
    · split
      · rename_i hdd
        cases out with
        | nil =>
          cases hr : rooted with
          | true => simp [GoodStack]
          | false => exact Or.inr ⟨hdd, rfl, by simp⟩
        | cons top rest =>
          simp only
          rcases hout with ⟨hn, hrest⟩ | ⟨htop, hr, hall⟩
          · have : top ≠ ['.', '.'] := hn.2.2.1
            simpa [this] using hrest
          · subst hr
            simp only [htop, if_true]
            refine Or.inr ⟨hdd, rfl, ?_⟩
            intro x hx
            rcases List.mem_cons.1 hx with rfl | hx
            · rfl
            · exact hall x hx
      · rename_i h1 h2 h3
        exact Or.inl ⟨⟨h1, h2, h3, he⟩, hout⟩

theorem foldl_cleanStep_good (isSep : Char → Bool) (rooted : Bool) (es : List Str) :
    ∀ out : List Str, (∀ e ∈ es, ∀ c ∈ e, isSep c = false) → GoodStack isSep rooted out →
      GoodStack isSep rooted (es.foldl (cleanStep rooted) out) := by
  induction es with
  | nil => intro out _ h; exact h
  | cons e rest ih =>
    intro out he hout
    simp only [List.foldl_cons]
    exact ih _ (fun x hx => he x (List.mem_cons_of_mem _ hx))
      (cleanStep_good isSep rooted out e (he e (List.mem_cons_self _ _)) hout)

theorem cleanStack_good (sep : Char) (path : Str) :
    GoodStack (IsPathSeparator sep) (isRooted sep path) (cleanStack sep path) :=
  foldl_cleanStep_good _ _ _ [] (splitBy_noSep _ path) trivial

theorem GoodStack_ne_nil (isSep : Char → Bool) (rooted : Bool) (l : List Str)
    (h : GoodStack isSep rooted l) : ∀ e ∈ l, e ≠ [] := by
  induction l with
  | nil => simp
  | cons x xs ih =>
    intro e he
    rcases h with ⟨hn, hrest⟩ | ⟨hx, _, hall⟩
    · rcases List.mem_cons.1 he with rfl | he
      · exact hn.1
      · exact ih hrest e he
    · rcases List.mem_cons.1 he with rfl | he
      · simp [hx]
      · simp [hall e he]

theorem GoodStack_noSep (isSep : Char → Bool) (hdot : isSep '.' = false) (rooted : Bool)
    (l : List Str) (h : GoodStack isSep rooted l) : ∀ e ∈ l, ∀ c ∈ e, isSep c = false := by
  induction l with
  | nil => simp
  | cons x xs ih =>
    intro e he
    rcases h with ⟨hn, hrest⟩ | ⟨hx, _, hall⟩
    · rcases List.mem_cons.1 he with rfl | he
      · exact hn.2.2.2
      · exact ih hrest e he
    · have : e = ['.', '.'] := by
        rcases List.mem_cons.1 he with rfl | he
        · exact hx
        · exact hall e he
      subst this
      intro c hc
      simp at hc
      simpa [hc] using hdot

theorem GoodStack_rooted_names (isSep : Char → Bool) (l : List Str)
    (h : GoodStack isSep true l) : ∀ e ∈ l, IsName isSep e := by
  induction l with
  | nil => simp
  | cons x xs ih =>
    intro e he
    rcases h with ⟨hn, hrest⟩ | ⟨_, hr, _⟩
    · rcases List.mem_cons.1 he with rfl | he
      · exact hn
      · exact ih hrest e he
    · exact absurd hr (by simp)

theorem foldl_cleanStep_names (isSep : Char → Bool) (rooted : Bool) (es : List Str)
    (h : ∀ e ∈ es, IsName isSep e) :
    ∀ out : List Str, es.foldl (cleanStep rooted) out = es.reverse ++ out := by
  induction es with
  | nil => intro out; rfl
  | cons e rest ih =>
    intro out
    simp only [List.foldl_cons, List.reverse_cons, List.append_assoc]
    rw [cleanStep_name isSep rooted out e (h e (List.mem_cons_self _ _)),
      ih (fun x hx => h x (List.mem_cons_of_mem _ hx))]
    simp

theorem foldl_cleanStep_reverse (isSep : Char → Bool) (rooted : Bool) (l : List Str)
    (h : GoodStack isSep rooted l) : l.reverse.foldl (cleanStep rooted) [] = l := by
  induction l with
  | nil => rfl
  | cons x xs ih =>
    rw [List.reverse_cons, List.foldl_append]
    simp only [List.foldl_cons, List.foldl_nil]
    rcases h with ⟨hn, hrest⟩ | ⟨hx, hr, hall⟩
    · rw [ih hrest, cleanStep_name isSep rooted xs x hn]
    · rw [ih (by subst hr; exact GoodStack_dotdots isSep xs hall)]
      subst hx hr
      cases xs with
      | nil => simp [cleanStep]
      | cons top rest =>
        have : top = ['.', '.'] := hall top (List.mem_cons_self _ _)
        simp [cleanStep, this]

/-! ## Properties of Clean -/

theorem joinElems_eq_nil (sep : Char) (es : List Str) (h : ∀ e ∈ es, e ≠ [])
    (hj : joinElems sep es = []) : es = [] := by
  cases es with
  | nil => rfl
  | cons e rest =>
    exfalso
    have he := h e (List.mem_cons_self _ _)
    cases rest with
    | nil => exact he (by simpa [joinElems] using hj)
    | cons e2 r2 => simp [joinElems] at hj

theorem joinElems_head (sep : Char) (c : Char) (cs : Str) (rest : List Str) :
    ∃ t, joinElems sep ((c :: cs) :: rest) = c :: t := by
  cases rest with
  | nil => exact ⟨cs, rfl⟩
  | cons e2 r2 => exact ⟨cs ++ sep :: joinElems sep (e2 :: r2), rfl⟩

theorem isRooted_cons (sep c : Char) (cs : Str) :
    isRooted sep (c :: cs) = IsPathSeparator sep c := rfl

theorem cleanStack_of_rooted (sep : Char) (c : Char) (cs : Str)
    (hc : IsPathSeparator sep c = true) :
    cleanStack sep (c :: cs) = (splitElems sep cs).foldl (cleanStep true) [] := by
  simp [cleanStack, splitElems, isRooted, hc, splitBy, cleanStep]

theorem Clean_ne_nil (sep : Char) (path : Str) : Clean sep path ≠ [] := by
  unfold Clean
  simp only
  split
  · simp
  · split
    · simp
    · assumption

theorem isRooted_joinElems_good (sep : Char) (rooted : Bool) (l : List Str)
    (hdot : IsPathSeparator sep '.' = false)
    (h : GoodStack (IsPathSeparator sep) rooted l) :
    isRooted sep (joinElems sep l.reverse) = false := by
  have hne : ∀ e ∈ l.reverse, e ≠ [] := fun e he =>
    GoodStack_ne_nil _ _ l h e (List.mem_reverse.1 he)
  have hns : ∀ e ∈ l.reverse, ∀ c ∈ e, IsPathSeparator sep c = false := fun e he =>
    GoodStack_noSep _ hdot _ l h e (List.mem_reverse.1 he)
  cases hl : l.reverse with
  | nil => rfl
  | cons e rest =>
    rw [hl] at hne hns
    cases e with
    | nil => exact absurd rfl (hne [] (List.mem_cons_self _ _))
    | cons c cs =>
      obtain ⟨t, ht⟩ := joinElems_head sep c cs rest
      rw [ht]
      exact hns (c :: cs) (List.mem_cons_self _ _) c (List.mem_cons_self _ _)

theorem isRooted_Clean (sep : Char) (hdot : IsPathSeparator sep '.' = false) (path : Str) :
    isRooted sep (Clean sep path) = isRooted sep path := by
  unfold Clean
  simp only
  cases hr : isRooted sep path with
  | true => simp [isRooted, IsPathSeparator_self]
  | false =>
    simp only [Bool.false_eq_true, if_false]
    split
    · simpa [isRooted] using hdot
    · have := isRooted_joinElems_good sep _ _ hdot (cleanStack_good sep path)
      exact this

theorem cleanStack_joinElems (sep : Char) (hdot : IsPathSeparator sep '.' = false)
    (rooted : Bool) (l : List Str) (h : GoodStack (IsPathSeparator sep) rooted l) :
    (splitElems sep (joinElems sep l.reverse)).foldl (cleanStep rooted) [] = l := by
  by_cases hl : l = []
  · subst hl
    simp [joinElems, splitElems, splitBy, cleanStep]
  · have hns : ∀ e ∈ l.reverse, ∀ c ∈ e, IsPathSeparator sep c = false := fun e he =>
      GoodStack_noSep _ hdot _ l h e (List.mem_reverse.1 he)
    unfold splitElems
    rw [splitBy_joinElems _ sep (IsPathSeparator_self sep) l.reverse (by simpa using hl) hns]
    exact foldl_cleanStep_reverse _ rooted l h

theorem cleanStack_Clean (sep : Char) (hdot : IsPathSeparator sep '.' = false) (path : Str) :
    cleanStack sep (Clean sep path) = cleanStack sep path := by
  have hg := cleanStack_good sep path
  have hroot := isRooted_Clean sep hdot path
  cases hr : isRooted sep path with
  | true =>
    rw [hr] at hg
    have hC : Clean sep path = sep :: joinElems sep (cleanStack sep path).reverse := by
      simp [Clean, hr]
    rw [hC, cleanStack_of_rooted sep sep _ (IsPathSeparator_self sep)]
    exact cleanStack_joinElems sep hdot true _ hg
  | false =>
    rw [hr] at hg hroot
    by_cases hb : joinElems sep (cleanStack sep path).reverse = []
    · have hC : Clean sep path = ['.'] := by simp [Clean, hr, hb]
      have hnil : (cleanStack sep path).reverse = [] :=
        joinElems_eq_nil sep _ (fun e he =>
          GoodStack_ne_nil _ _ _ hg e (List.mem_reverse.1 he)) hb
      have hnil' : cleanStack sep path = [] := by simpa using hnil
      rw [hC, hnil']
      simp [cleanStack, splitElems, splitBy, hdot, cleanStep]
    · have hC : Clean sep path = joinElems sep (cleanStack sep path).reverse := by
        simp [Clean, hr, hb]
      rw [hC] at hroot ⊢
      have hdef : ∀ p : Str, cleanStack sep p =
          (splitElems sep p).foldl (cleanStep (isRooted sep p)) [] := fun _ => rfl
      rw [hdef (joinElems sep (cleanStack sep path).reverse), hroot]
      exact cleanStack_joinElems sep hdot false _ hg

theorem Clean_idem (sep : Char) (hdot : IsPathSeparator sep '.' = false) (path : Str) :
    Clean sep (Clean sep path) = Clean sep path := by
  have h1 := cleanStack_Clean sep hdot path
  have h2 := isRooted_Clean sep hdot path
  show (let body := joinElems sep (cleanStack sep (Clean sep path)).reverse
        if isRooted sep (Clean sep path) then sep :: body
        else if body = [] then ['.'] else body) = Clean sep path
  rw [h1, h2]
  rfl

theorem isRooted_append (sep : Char) (a b : Str) (ha : a ≠ []) :
    isRooted sep (a ++ b) = isRooted sep a := by
  cases a with
  | nil => exact absurd rfl ha
  | cons c cs => rfl

theorem cleanStack_append_sep (sep : Char) (a : Str) (c : Char) (b : Str) (ha : a ≠ [])
    (hc : IsPathSeparator sep c = true) :
    cleanStack sep (a ++ c :: b) =
      (splitElems sep b).foldl (cleanStep (isRooted sep a)) (cleanStack sep a) := by
  unfold cleanStack splitElems
  rw [splitBy_append_sep _ a c b hc, List.foldl_append, isRooted_append sep a _ ha]

theorem Clean_append_sep (sep : Char) (a : Str) (c : Char) (ha : a ≠ [])
    (hc : IsPathSeparator sep c = true) : Clean sep (a ++ [c]) = Clean sep a := by
  have h1 : cleanStack sep (a ++ [c]) = cleanStack sep a := by
    rw [cleanStack_append_sep sep a c [] ha hc]
    simp [splitElems, splitBy, cleanStep]
  have h2 := isRooted_append sep a [c] ha
  show (let body := joinElems sep (cleanStack sep (a ++ [c])).reverse
        if isRooted sep (a ++ [c]) then sep :: body
        else if body = [] then ['.'] else body) = Clean sep a
  rw [h1, h2]
  rfl

theorem joinElems_getLast (sep : Char) (as : List Str) (e : Str) (he : e ≠ []) :
    (joinElems sep (as ++ [e])).getLast? = e.getLast? := by
  by_cases ha : as = []
  · subst ha; rfl
  · rw [joinElems_append sep as [e] ha (by simp)]
    simp only [joinElems]
    cases e with
    | nil => exact absurd rfl he
    | cons c cs =>
      rw [List.getLast?_append, List.getLast?_cons_cons]
      obtain ⟨x, hx⟩ : ∃ x, (c :: cs).getLast? = some x :=
        ⟨(c :: cs).getLast (by simp), List.getLast?_eq_getLast _ _⟩
      rw [hx]; rfl

theorem GoodStack_top_getLast (sep : Char) (hdot : IsPathSeparator sep '.' = false)
    (rooted : Bool) (top : Str) (rest : List Str)
    (h : GoodStack (IsPathSeparator sep) rooted (top :: rest)) :
    ∃ c, (joinElems sep (top :: rest).reverse).getLast? = some c ∧
      IsPathSeparator sep c = false := by
  have hne := GoodStack_ne_nil _ _ _ h top (List.mem_cons_self _ _)
  have hns := GoodStack_noSep _ hdot _ _ h top (List.mem_cons_self _ _)
  rw [List.reverse_cons, joinElems_getLast sep _ top hne]
  refine ⟨top.getLast hne, List.getLast?_eq_getLast _ _, hns _ (List.getLast_mem _)⟩

theorem Clean_getLast (sep : Char) (hdot : IsPathSeparator sep '.' = false) (path : Str)
    (c : Char) (hc : IsPathSeparator sep c = true)
    (hl : (Clean sep path).getLast? = some c) : Clean sep path = [sep] := by
  have hg := cleanStack_good sep path
  cases hS : cleanStack sep path with
  | nil =>
    cases hr : isRooted sep path with
    | true => simp [Clean, hr, hS, joinElems]
    | false =>
      have hC : Clean sep path = ['.'] := by simp [Clean, hr, hS, joinElems]
      rw [hC] at hl
      simp at hl
      subst hl
      rw [hdot] at hc
      exact absurd hc (by simp)
  | cons top rest =>
    exfalso
    rw [hS] at hg
    obtain ⟨d, hd1, hd2⟩ := GoodStack_top_getLast sep hdot _ top rest hg
    have hbne : joinElems sep (top :: rest).reverse ≠ [] := by
      intro h0; rw [h0] at hd1; simp at hd1
    cases hr : isRooted sep path with
    | true =>
      have hC : Clean sep path = sep :: joinElems sep (top :: rest).reverse := by
        simp [Clean, hr, hS]
      rw [hC] at hl
      obtain ⟨x, xs, hx⟩ := List.exists_cons_of_ne_nil hbne
      rw [hx] at hl hd1
      rw [List.getLast?_cons_cons, hd1] at hl
      cases hl
      rw [hd2] at hc
      exact absurd hc (by simp)
    | false =>
      have hC : Clean sep path = joinElems sep (top :: rest).reverse := by
        unfold Clean
        simp only [hr, hS]
        rw [if_neg (by simp), if_neg hbne]
      rw [hC, hd1] at hl
      cases hl
      rw [hd2] at hc
      exact absurd hc (by simp)

theorem isSuffixOf_singleton (c : Char) (l : Str) :
    [c].isSuffixOf l = true ↔ l.getLast? = some c := by
  rw [List.isSuffixOf_iff_suffix]
  constructor
  · rintro ⟨t, rfl⟩
    simp
  · intro h
    have hne : l ≠ [] := by intro h0; rw [h0] at h; simp at h
    refine ⟨l.dropLast, ?_⟩
    have := List.dropLast_append_getLast hne
    rw [List.getLast?_eq_getLast _ hne] at h
    cases h
    exact this

/-! ## Separator conventions -/

theorem splitBy_map (isSep : Char → Bool) (f : Char → Char)
    (h1 : ∀ c, isSep (f c) = isSep c) (h2 : ∀ c, isSep c = false → f c = c) (s : Str) :
    splitBy isSep (s.map f) = splitBy isSep s := by
  induction s with
  | nil => rfl
  | cons c cs ih =>
    by_cases hc : isSep c = true
    · simp [splitBy, h1, hc, ih]
    · have hc' : isSep c = false := by simpa using hc
      simp [splitBy, h1, hc', ih, h2 c hc']

theorem isRooted_map (sep : Char) (f : Char → Char)
    (h1 : ∀ c, IsPathSeparator sep (f c) = IsPathSeparator sep c) (s : Str) :
    isRooted sep (s.map f) = isRooted sep s := by
  cases s with
  | nil => rfl
  | cons c cs => simp [isRooted, h1]

theorem Clean_map (sep : Char) (f : Char → Char)
    (h1 : ∀ c, IsPathSeparator sep (f c) = IsPathSeparator sep c)
    (h2 : ∀ c, IsPathSeparator sep c = false → f c = c) (s : Str) :
    Clean sep (s.map f) = Clean sep s := by
  have hs : cleanStack sep (s.map f) = cleanStack sep s := by
    unfold cleanStack splitElems
    rw [splitBy_map _ f h1 h2, isRooted_map sep f h1]
  unfold Clean
  rw [hs, isRooted_map sep f h1]

theorem Clean_ToSlash (sep : Char) (path : Str) :
    Clean sep (ToSlash sep path) = Clean sep path := by
  unfold ToSlash
  split
  · rfl
  · apply Clean_map
    · intro c
      by_cases hc : c = sep
      · simp [hc, IsPathSeparator]
      · simp [hc]
    · intro c hc
      have : c ≠ sep := by
        rintro rfl
        rw [IsPathSeparator_self] at hc
        exact absurd hc (by simp)
      simp [this]

theorem Clean_FromSlash (sep : Char) (path : Str) :
    Clean sep (FromSlash sep path) = Clean sep path := by
  unfold FromSlash
  split
  · rfl
  · apply Clean_map
    · intro c
      by_cases hc : c = '/'
      · simp [hc, IsPathSeparator]
      · simp [hc]
    · intro c hc
      have : c ≠ '/' := by
        rintro rfl
        rw [IsPathSeparator_slash] at hc
        exact absurd hc (by simp)
      simp [this]

/-! ## hasSubdir -/

/-- The string `hasSubdir` compares with: the cleaned root, with one separator
appended unless it already ends in one. -/
theorem rootWithSep_def (sep : Char) (root : Str) :
    rootWithSep sep root =
      if [sep].isSuffixOf (Clean sep root) then Clean sep root else Clean sep root ++ [sep] := rfl

theorem hasSubdir_eq (sep : Char) (root dir : Str) :
    hasSubdir sep root dir =
      if (rootWithSep sep root).isPrefixOf (Clean sep dir) then
        (ToSlash sep ((Clean sep dir).drop (rootWithSep sep root).length), true)
      else ([], false) := by
  show (if !((rootWithSep sep root).isPrefixOf (Clean sep dir)) then ([], false)
    else (ToSlash sep ((Clean sep dir).drop (rootWithSep sep root).length), true)) = _
  cases (rootWithSep sep root).isPrefixOf (Clean sep dir) <;> simp

/-- C8: rewriting `root`, `dir` or both with `filepath.ToSlash` or with
`filepath.FromSlash` leaves the result of `hasSubdir`, flag and relative path,
unchanged. -/
theorem hasSubdir_separator_invariant (sep : Char) (root dir : Str) :
    hasSubdir sep (ToSlash sep root) dir = hasSubdir sep root dir ∧
    hasSubdir sep root (ToSlash sep dir) = hasSubdir sep root dir ∧
    hasSubdir sep (ToSlash sep root) (ToSlash sep dir) = hasSubdir sep root dir ∧
    hasSubdir sep (FromSlash sep root) dir = hasSubdir sep root dir ∧
    hasSubdir sep root (FromSlash sep dir) = hasSubdir sep root dir ∧
    hasSubdir sep (FromSlash sep root) (FromSlash sep dir) = hasSubdir sep root dir := by
  simp only [hasSubdir_eq, rootWithSep_def, Clean_ToSlash, Clean_FromSlash, and_self]

theorem isPathSeparator_dot (sep : Char) (hsep : sep ≠ '.') :
    IsPathSeparator sep '.' = false := by
  have h : ¬ ('.' = sep) := fun h => hsep h.symm
  simp [IsPathSeparator, h]

theorem rootWithSep_of_ne (sep : Char) (hsep : sep ≠ '.') (root : Str)
    (h : Clean sep root ≠ [sep]) : rootWithSep sep root = Clean sep root ++ [sep] := by
  unfold rootWithSep
  rw [if_neg]
  intro hs
  exact h (Clean_getLast sep (isPathSeparator_dot sep hsep) root sep (IsPathSeparator_self sep)
    ((isSuffixOf_singleton sep _).1 hs))

theorem rootWithSep_of_eq (sep : Char) (root : Str) (h : Clean sep root = [sep]) :
    rootWithSep sep root = [sep] := by
  unfold rootWithSep
  rw [h]
  simp

theorem rootWithSep_getLast (sep : Char) (root : Str) :
    (rootWithSep sep root).getLast? = some sep := by
  unfold rootWithSep
  split
  · rename_i h
    exact (isSuffixOf_singleton sep _).1 h
  · simp

theorem rootWithSep_eq_of_Clean_eq (sep : Char) (a b : Str) (h : Clean sep a = Clean sep b) :
    rootWithSep sep a = rootWithSep sep b := by
  unfold rootWithSep
  rw [h]

theorem hasSubdir_congr (sep : Char) (r1 r2 d1 d2 : Str) (hr : Clean sep r1 = Clean sep r2)
    (hd : Clean sep d1 = Clean sep d2) : hasSubdir sep r1 d1 = hasSubdir sep r2 d2 := by
  rw [hasSubdir_eq, hasSubdir_eq, rootWithSep_eq_of_Clean_eq sep r1 r2 hr, hd]

theorem hasSubdir_fail_of_not_pre (sep : Char) (root dir : Str)
    (h : ¬ ∃ rest, Clean sep dir = rootWithSep sep root ++ rest) :
    hasSubdir sep root dir = ([], false) := by
  rw [hasSubdir_eq, if_neg]
  intro hp
  obtain ⟨rest, hrest⟩ := List.isPrefixOf_iff_prefix.1 hp
  exact h ⟨rest, hrest.symm⟩

theorem hasSubdir_ok_iff (sep : Char) (root dir : Str) (rel : Str) :
    hasSubdir sep root dir = (rel, true) ↔
      ∃ rest, Clean sep dir = rootWithSep sep root ++ rest ∧ rel = ToSlash sep rest := by
  rw [hasSubdir_eq]
  constructor
  · intro h
    split at h
    · rename_i hp
      obtain ⟨rest, hrest⟩ := List.isPrefixOf_iff_prefix.1 hp
      refine ⟨rest, hrest.symm, ?_⟩
      rw [← hrest] at h
      simp at h
      exact h.symm
    · simp at h
  · rintro ⟨rest, hrest, rfl⟩
    have hp : (rootWithSep sep root).isPrefixOf (Clean sep dir) = true :=
      List.isPrefixOf_iff_prefix.2 ⟨rest, hrest.symm⟩
    rw [if_pos hp, hrest]
    simp

theorem hasSubdir_same_Clean (sep : Char) (hsep : sep ≠ '.') (root dir : Str)
    (hroot : Clean sep root ≠ [sep]) (hd : Clean sep dir = Clean sep root) :
    hasSubdir sep root dir = ([], false) := by
  apply hasSubdir_fail_of_not_pre
  rintro ⟨rest, hrest⟩
  rw [rootWithSep_of_ne sep hsep root hroot, hd] at hrest
  have := congrArg List.length hrest
  simp at this

theorem ToSlash_eq_nil (sep : Char) (s : Str) : ToSlash sep s = [] ↔ s = [] := by
  unfold ToSlash
  split <;> simp

theorem hasSubdir_rel_ne_nil (sep : Char) (hsep : sep ≠ '.') (root dir rel : Str)
    (hroot : Clean sep root ≠ [sep]) (h : hasSubdir sep root dir = (rel, true)) :
    rel ≠ [] := by
  obtain ⟨rest, hrest, rfl⟩ := (hasSubdir_ok_iff sep root dir _).1 h
  intro h0
  rw [ToSlash_eq_nil] at h0
  subst h0
  rw [rootWithSep_of_ne sep hsep root hroot, List.append_nil] at hrest
  have h1 := Clean_getLast sep (isPathSeparator_dot sep hsep) dir sep (IsPathSeparator_self sep)
    (by rw [hrest]; simp)
  rw [h1] at hrest
  have h2 := congrArg List.length hrest
  simp only [List.length_append, List.length_singleton] at h2
  exact Clean_ne_nil sep root (List.length_eq_zero.1 (by omega))

theorem Clean_nil (sep : Char) : Clean sep [] = ['.'] := by
  simp [Clean, cleanStack, splitElems, splitBy, cleanStep, isRooted, joinElems]

theorem GoodStack_ne_dot (isSep : Char → Bool) (rooted : Bool) (l : List Str)
    (h : GoodStack isSep rooted l) : ∀ e ∈ l, e ≠ ['.'] := by
  induction l with
  | nil => simp
  | cons x xs ih =>
    intro e he
    rcases h with ⟨hn, hrest⟩ | ⟨hx, _, hall⟩
    · rcases List.mem_cons.1 he with rfl | he
      · exact hn.2.1
      · exact ih hrest e he
    · rcases List.mem_cons.1 he with rfl | he
      · simp [hx]
      · simp [hall e he]

theorem Clean_not_dot_sep (sep : Char) (hsep : sep ≠ '.') (path : Str) (c : Char)
    (hc : IsPathSeparator sep c = true) (rest : Str) : Clean sep path ≠ '.' :: c :: rest := by
  intro h
  have hdot := isPathSeparator_dot sep hsep
  have hg := cleanStack_good sep path
  have hr : isRooted sep path = false := by
    rw [← isRooted_Clean sep hdot path, h]
    exact hdot
  rw [hr] at hg
  have hC : Clean sep path =
      if joinElems sep (cleanStack sep path).reverse = [] then ['.']
      else joinElems sep (cleanStack sep path).reverse := by
    simp [Clean, hr]
  by_cases hb : joinElems sep (cleanStack sep path).reverse = []
  · rw [hC, if_pos hb] at h
    simp at h
  · rw [hC, if_neg hb] at h
    have hne : (cleanStack sep path).reverse ≠ [] := by
      intro h0; rw [h0] at hb; exact hb rfl
    have hsp := splitBy_joinElems (IsPathSeparator sep) sep (IsPathSeparator_self sep)
      (cleanStack sep path).reverse hne (fun e he =>
        GoodStack_noSep _ hdot _ _ hg e (List.mem_reverse.1 he))
    rw [h] at hsp
    have h2 : splitBy (IsPathSeparator sep) ('.' :: c :: rest) =
        ['.'] :: splitBy (IsPathSeparator sep) rest := by
      simp [splitBy, hdot, hc]
    rw [h2] at hsp
    have hmem : ['.'] ∈ (cleanStack sep path).reverse := by
      rw [← hsp]; exact List.mem_cons_self _ _
    exact GoodStack_ne_dot _ _ _ hg _ (List.mem_reverse.1 hmem) rfl

theorem hasSubdir_nil_root (sep : Char) (hsep : sep ≠ '.') (dir : Str) :
    hasSubdir sep [] dir = ([], false) := by
  apply hasSubdir_fail_of_not_pre
  rintro ⟨rest, hrest⟩
  have hne : Clean sep [] ≠ [sep] := by
    rw [Clean_nil]
    intro h
    simp at h
    exact hsep h.symm
  rw [rootWithSep_of_ne sep hsep [] hne, Clean_nil] at hrest
  exact Clean_not_dot_sep sep hsep dir sep (IsPathSeparator_self sep) rest hrest

theorem hasSubdir_nil_dir (sep : Char) (hsep : sep ≠ '.') (root : Str) :
    hasSubdir sep root [] = ([], false) := by
  apply hasSubdir_fail_of_not_pre
  rintro ⟨rest, hrest⟩
  rw [Clean_nil] at hrest
  have hl := rootWithSep_getLast sep root
  cases hrw : rootWithSep sep root with
  | nil => rw [hrw] at hl; simp at hl
  | cons x xs =>
    rw [hrw] at hrest hl
    simp at hrest
    obtain ⟨hx, hxs, _⟩ := hrest
    subst hx hxs
    simp at hl
    exact hsep hl.symm

/-! ## Dir and the directory part -/

theorem dirPart_noSep (isSep : Char → Bool) (f : Str) (h : ∀ c ∈ f, isSep c = false) :
    dirPart isSep f = [] := by
  induction f with
  | nil => rfl
  | cons c cs ih =>
    have h1 := ih (fun d hd => h d (List.mem_cons_of_mem _ hd))
    have h2 := h c (List.mem_cons_self _ _)
    simp [dirPart, h1, h2]

theorem dirPart_append (isSep : Char → Bool) (a : Str) (c : Char) (f : Str)
    (hc : isSep c = true) (h : ∀ x ∈ f, isSep x = false) :
    dirPart isSep (a ++ c :: f) = a ++ [c] := by
  induction a with
  | nil => simp [dirPart, dirPart_noSep isSep f h, hc]
  | cons x xs ih =>
    cases hxs : xs ++ [c] with
    | nil => simp at hxs
    | cons d ds =>
      rw [hxs] at ih
      show (match dirPart isSep (xs ++ c :: f) with
        | [] => if isSep x = true then [x] else []
        | d :: ds => x :: d :: ds) = x :: (xs ++ [c])
      rw [ih, hxs]

theorem pathDir_file (R f : Str) (hR : R ≠ []) (hf : ∀ c ∈ f, c ≠ '/') :
    pathDir (R ++ '/' :: f) = Clean '/' R := by
  unfold pathDir
  rw [dirPart_append _ R '/' f (by simp) (by simpa using hf)]
  exact Clean_append_sep '/' R '/' hR (by decide)

/-! ## HasSubdir -/

theorem HasSubdir_of_none (sep : Char) (ctxt : Context) (fs : FileSystem) (root dir : Str)
    (hctx : ctxt.HasSubdir = none) :
    HasSubdir sep ctxt fs root dir =
      if (hasSubdir sep root dir).2 then hasSubdir sep root dir
      else if (hasSubdir sep (fs.EvalSymlinks root) dir).2 then
        hasSubdir sep (fs.EvalSymlinks root) dir
      else if (hasSubdir sep root (fs.EvalSymlinks dir)).2 then
        hasSubdir sep root (fs.EvalSymlinks dir)
      else hasSubdir sep (fs.EvalSymlinks root) (fs.EvalSymlinks dir) := by
  unfold HasSubdir
  rw [hctx]

theorem hasSubdir_snd_false (sep : Char) (root dir : Str)
    (h : (hasSubdir sep root dir).2 = false) : hasSubdir sep root dir = ([], false) := by
  rw [hasSubdir_eq] at h ⊢
  split
  · rename_i hp
    rw [if_pos hp] at h
    simp at h
  · rfl

theorem HasSubdir_without_symlinks (sep : Char) (hsep : sep ≠ '.') (ctxt : Context)
    (fs : FileSystem) (root dir : Str) (hctx : ctxt.HasSubdir = none)
    (hr : fs.EvalSymlinks root = Clean sep root ∨ fs.EvalSymlinks root = [])
    (hd : fs.EvalSymlinks dir = Clean sep dir ∨ fs.EvalSymlinks dir = [])
    (h : hasSubdir sep root dir = ([], false)) :
    HasSubdir sep ctxt fs root dir = ([], false) := by
  have hdot := isPathSeparator_dot sep hsep
  have e1 : ∀ d, hasSubdir sep (Clean sep root) d = hasSubdir sep root d := fun d =>
    hasSubdir_congr sep _ _ _ _ (Clean_idem sep hdot root) rfl
  have e2 : ∀ r, hasSubdir sep r (Clean sep dir) = hasSubdir sep r dir := fun r =>
    hasSubdir_congr sep _ _ _ _ rfl (Clean_idem sep hdot dir)
  rw [HasSubdir_of_none sep ctxt fs root dir hctx]
  rcases hr with hr | hr <;> rcases hd with hd | hd <;>
    simp [hr, hd, e1, e2, h, hasSubdir_nil_root sep hsep, hasSubdir_nil_dir sep hsep]

/-! ## Lengths in bytes -/

theorem utf8Size_pos (c : Char) : 1 ≤ utf8Size c := by
  unfold utf8Size
  simp only
  split
  · exact le_refl _
  · split
    · omega
    · split <;> omega

theorem byteLen_nil : byteLen [] = 0 := rfl

theorem byteLen_cons (c : Char) (s : Str) : byteLen (c :: s) = utf8Size c + byteLen s := by
  simp [byteLen]

theorem byteLen_append (a b : Str) : byteLen (a ++ b) = byteLen a + byteLen b := by
  simp [byteLen]

theorem byteLen_pos (s : Str) (h : s ≠ []) : 1 ≤ byteLen s := by
  cases s with
  | nil => exact absurd rfl h
  | cons c cs =>
    rw [byteLen_cons]
    have := utf8Size_pos c
    omega

theorem byteLen_eq_zero (s : Str) (h : byteLen s = 0) : s = [] := by
  by_contra hne
  have := byteLen_pos s hne
  omega

theorem utf8Size_separator (sep : Char) (hs : utf8Size sep = 1) (c : Char)
    (hc : IsPathSeparator sep c = true) : utf8Size c = 1 := by
  simp only [IsPathSeparator, Bool.or_eq_true, beq_iff_eq] at hc
  rcases hc with rfl | rfl
  · exact hs
  · decide

theorem elemsWeight_cons (e : Str) (es : List Str) :
    elemsWeight (e :: es) = byteLen e + 1 + elemsWeight es := by
  simp [elemsWeight]

theorem elemsWeight_nil : elemsWeight [] = 0 := rfl

theorem elemsWeight_reverse (l : List Str) : elemsWeight l.reverse = elemsWeight l := by
  unfold elemsWeight
  rw [List.map_reverse, List.sum_reverse]

theorem splitBy_weight (isSep : Char → Bool) (h1 : ∀ c, isSep c = true → utf8Size c = 1)
    (s : Str) : elemsWeight (splitBy isSep s) = byteLen s + 1 := by
  induction s with
  | nil => simp [splitBy, elemsWeight, byteLen]
  | cons c cs ih =>
    by_cases hc : isSep c = true
    · rw [splitBy_cons_sep isSep c cs hc, elemsWeight_cons, ih, byteLen_cons, h1 c hc,
        byteLen_nil]
      omega
    · have hc' : isSep c = false := by simpa using hc
      obtain ⟨e, es, e1, e2⟩ := splitBy_cons_other isSep c cs hc'
      rw [e1, elemsWeight_cons] at ih
      rw [e2, elemsWeight_cons, byteLen_cons, byteLen_cons]
      omega

theorem cleanStep_weight (rooted : Bool) (out : List Str) (e : Str) :
    elemsWeight (cleanStep rooted out e) ≤ elemsWeight out + (byteLen e + 1) := by
  unfold cleanStep
  split
  · omega
  · split
    · omega
    · split
      · cases out with
        | nil =>
          cases rooted <;> simp [elemsWeight]
        | cons top rest =>
          simp only
          split
          · cases rooted
            · simp only [Bool.false_eq_true, if_false, elemsWeight_cons]
              omega
            · simp
          · rw [elemsWeight_cons]; omega
      · rw [elemsWeight_cons]; omega

theorem foldl_cleanStep_weight (rooted : Bool) (es : List Str) :
    ∀ out, elemsWeight (es.foldl (cleanStep rooted) out) ≤ elemsWeight out + elemsWeight es := by
  induction es with
  | nil => intro out; simp [elemsWeight_nil]
  | cons e rest ih =>
    intro out
    simp only [List.foldl_cons]
    have h1 := ih (cleanStep rooted out e)
    have h2 := cleanStep_weight rooted out e
    rw [elemsWeight_cons]
    omega

theorem joinElems_byteLen (sep : Char) (hs : utf8Size sep = 1) (es : List Str) (h : es ≠ []) :
    byteLen (joinElems sep es) + 1 = elemsWeight es := by
  induction es with
  | nil => exact absurd rfl h
  | cons e rest ih =>
    cases rest with
    | nil => simp [joinElems, elemsWeight]
    | cons e2 r2 =>
      have := ih (by simp)
      rw [joinElems_cons_cons, elemsWeight_cons, byteLen_append, byteLen_cons, hs]
      omega

theorem Clean_byteLen_le (sep : Char) (hs : utf8Size sep = 1) (path : Str) (h : path ≠ []) :
    byteLen (Clean sep path) ≤ byteLen path := by
  have hsp := utf8Size_separator sep hs
  cases path with
  | nil => exact absurd rfl h
  | cons c cs =>
    by_cases hc : IsPathSeparator sep c = true
    · have hS := cleanStack_of_rooted sep c cs hc
      have hw := foldl_cleanStep_weight true (splitElems sep cs) []
      rw [← hS] at hw
      unfold splitElems at hw
      rw [splitBy_weight _ hsp, elemsWeight_nil] at hw
      have hC : Clean sep (c :: cs) = sep :: joinElems sep (cleanStack sep (c :: cs)).reverse := by
        simp [Clean, isRooted, hc]
      rw [hC, byteLen_cons, byteLen_cons, hs, hsp c hc]
      by_cases hnil : cleanStack sep (c :: cs) = []
      · rw [hnil]
        simp [joinElems, byteLen]
      · have := joinElems_byteLen sep hs (cleanStack sep (c :: cs)).reverse (by simpa using hnil)
        rw [elemsWeight_reverse] at this
        omega
    · have hc' : IsPathSeparator sep c = false := by simpa using hc
      have hw := foldl_cleanStep_weight false (splitElems sep (c :: cs)) []
      have hS : cleanStack sep (c :: cs) =
          (splitElems sep (c :: cs)).foldl (cleanStep false) [] := by
        simp [cleanStack, isRooted, hc']
      rw [← hS] at hw
      unfold splitElems at hw
      rw [splitBy_weight _ hsp, elemsWeight_nil] at hw
      have hpos := byteLen_pos (c :: cs) (by simp)
      unfold Clean
      simp only [isRooted, hc', Bool.false_eq_true, if_false]
      split
      · have : byteLen ['.'] = 1 := by decide
        omega
      · rename_i hb
        have hne : (cleanStack sep (c :: cs)).reverse ≠ [] := by
          intro h0; rw [h0] at hb; exact hb rfl
        have := joinElems_byteLen sep hs _ hne
        rw [elemsWeight_reverse] at this
        omega

theorem Clean_singleton_sep (sep c : Char) (hc : IsPathSeparator sep c = true) :
    Clean sep [c] = [sep] := by
  simp [Clean, cleanStack, splitElems, splitBy, cleanStep, isRooted, joinElems, hc]

theorem dirPart_shape (isSep : Char → Bool) (p : Str) :
    (dirPart isSep p = [] ∨ ∃ q s, dirPart isSep p = q ++ [s] ∧ isSep s = true) ∧
      byteLen (dirPart isSep p) ≤ byteLen p := by
  induction p with
  | nil => simp [dirPart]
  | cons c cs ih =>
    obtain ⟨ih1, ih2⟩ := ih
    cases hd : dirPart isSep cs with
    | nil =>
      by_cases hc : isSep c = true
      · have : dirPart isSep (c :: cs) = [c] := by simp [dirPart, hd, hc]
        rw [this]
        refine ⟨Or.inr ⟨[], c, rfl, hc⟩, ?_⟩
        rw [byteLen_cons, byteLen_cons, byteLen_nil]
        omega
      · have : dirPart isSep (c :: cs) = [] := by simp [dirPart, hd, hc]
        rw [this]
        exact ⟨Or.inl rfl, by rw [byteLen_nil]; omega⟩
    | cons d ds =>
      have : dirPart isSep (c :: cs) = c :: d :: ds := by simp [dirPart, hd]
      rw [this]
      rw [hd] at ih1 ih2
      refine ⟨Or.inr ?_, by rw [byteLen_cons, byteLen_cons c cs]; omega⟩
      rcases ih1 with h0 | ⟨q, s, hq, hs⟩
      · simp at h0
      · exact ⟨c :: q, s, by rw [hq]; rfl, hs⟩

theorem Dir_byteLen_lt (dir : Str) (h : 1 < byteLen dir) : byteLen (Dir dir) < byteLen dir := by
  unfold Dir
  have hone : byteLen ['.'] = 1 := by decide
  have hroot : byteLen ['/'] = 1 := by decide
  obtain ⟨h1, h2⟩ := dirPart_shape (IsPathSeparator '/') dir
  rcases h1 with h0 | ⟨q, s, hq, hs⟩
  · rw [h0, Clean_nil, hone]
    exact h
  · rw [hq] at h2 ⊢
    by_cases hqn : q = []
    · subst hqn
      rw [List.nil_append, Clean_singleton_sep '/' s hs, hroot]
      exact h
    · rw [Clean_append_sep '/' q s hqn hs]
      have := Clean_byteLen_le '/' (by decide) q hqn
      rw [byteLen_append, byteLen_cons, byteLen_nil] at h2
      have := utf8Size_pos s
      omega

/-! ## The directory of a joined file name -/

theorem Join_pair (a b : Str) (ha : a ≠ []) :
    Join [a, b] = Clean '/' (a ++ '/' :: b) := by
  cases a with
  | nil => exact absurd rfl ha
  | cons c cs => simp [Join, List.dropWhile, joinElems]

theorem cleanStack_Clean_name (sep : Char) (hdot : IsPathSeparator sep '.' = false)
    (x name : Str) (hname : IsName (IsPathSeparator sep) name) :
    cleanStack sep (Clean sep x ++ sep :: name) = name :: cleanStack sep x := by
  rw [cleanStack_append_sep sep _ sep name (Clean_ne_nil sep x) (IsPathSeparator_self sep),
    cleanStack_Clean sep hdot, isRooted_Clean sep hdot]
  unfold splitElems
  rw [splitBy_of_noSep _ name hname.2.2.2]
  simp only [List.foldl_cons, List.foldl_nil]
  exact cleanStep_name _ _ _ _ hname

theorem Clean_of_stack (sep : Char) (path : Str) :
    Clean sep path =
      if isRooted sep path then sep :: joinElems sep (cleanStack sep path).reverse
      else if joinElems sep (cleanStack sep path).reverse = [] then ['.']
      else joinElems sep (cleanStack sep path).reverse := rfl

theorem joinElems_ne_nil (sep : Char) (es : List Str) (hne : es ≠ [])
    (h : ∀ e ∈ es, e ≠ []) : joinElems sep es ≠ [] :=
  fun h0 => hne (joinElems_eq_nil sep es h h0)

theorem Clean_Clean_name (sep : Char) (hdot : IsPathSeparator sep '.' = false)
    (x name : Str) (hname : IsName (IsPathSeparator sep) name) :
    (cleanStack sep x = [] ∧ isRooted sep x = true ∧ Clean sep x = [sep] ∧
      Clean sep (Clean sep x ++ sep :: name) = sep :: name) ∨
    (cleanStack sep x = [] ∧ isRooted sep x = false ∧ Clean sep x = ['.'] ∧
      Clean sep (Clean sep x ++ sep :: name) = name) ∨
    (cleanStack sep x ≠ [] ∧
      Clean sep (Clean sep x ++ sep :: name) = Clean sep x ++ sep :: name) := by
  have hst := cleanStack_Clean_name sep hdot x name hname
  have hro : isRooted sep (Clean sep x ++ sep :: name) = isRooted sep x := by
    rw [isRooted_append sep _ _ (Clean_ne_nil sep x), isRooted_Clean sep hdot]
  have hg := cleanStack_good sep x
  have hC := Clean_of_stack sep x
  have hG := Clean_of_stack sep (Clean sep x ++ sep :: name)
  rw [hst, hro] at hG
  by_cases hS : cleanStack sep x = []
  · rw [hS] at hG hC
    simp only [List.reverse_cons, List.reverse_nil, List.nil_append, joinElems] at hG hC
    cases hr : isRooted sep x with
    | true =>
      rw [hr] at hG hC
      exact Or.inl ⟨hS, rfl, by simpa using hC, by simpa using hG⟩
    | false =>
      rw [hr] at hG hC
      refine Or.inr (Or.inl ⟨hS, rfl, by simpa using hC, ?_⟩)
      rw [hG]
      simp [hname.1]
  · refine Or.inr (Or.inr ⟨hS, ?_⟩)
    have hne : (cleanStack sep x).reverse ≠ [] := by simpa using hS
    have hB : joinElems sep (cleanStack sep x).reverse ≠ [] :=
      joinElems_ne_nil sep _ hne (fun e he =>
        GoodStack_ne_nil _ _ _ hg e (List.mem_reverse.1 he))
    have hJ : joinElems sep (name :: cleanStack sep x).reverse =
        joinElems sep (cleanStack sep x).reverse ++ sep :: name := by
      rw [List.reverse_cons, joinElems_append sep _ [name] hne (by simp)]
      rfl
    rw [hJ] at hG
    rw [hG, hC]
    cases hr : isRooted sep x with
    | true => simp
    | false => simp [hB]

theorem Dir_Join_name (x name : Str) (hname : IsName (IsPathSeparator '/') name) :
    Dir (Join [Clean '/' x, name]) = Clean '/' x := by
  have hdot : IsPathSeparator '/' '.' = false := by decide
  have hself : IsPathSeparator '/' '/' = true := by decide
  rw [Join_pair _ _ (Clean_ne_nil '/' x)]
  unfold Dir
  rcases Clean_Clean_name '/' hdot x name hname with
    ⟨_, _, hC, hG⟩ | ⟨_, _, hC, hG⟩ | ⟨_, hG⟩
  · rw [hG, hC]
    have := dirPart_append (IsPathSeparator '/') [] '/' name hself hname.2.2.2
    simp only [List.nil_append] at this
    rw [this]
    exact Clean_singleton_sep '/' '/' hself
  · rw [hG, hC, dirPart_noSep _ name hname.2.2.2]
    exact Clean_nil '/'
  · rw [hG, dirPart_append _ _ '/' name hself hname.2.2.2,
      Clean_append_sep '/' _ '/' (Clean_ne_nil '/' x) hself]
    exact Clean_idem '/' hdot x

theorem ancestorDir_succ (n : Nat) :
    ∀ dir : Str, ancestorDir (n + 1) dir = Dir (ancestorDir n dir) := by
  induction n with
  | zero => intro dir; rfl
  | succ n ih =>
    intro dir
    show ancestorDir (n + 1) (Dir dir) = _
    rw [ih (Dir dir)]
    rfl

theorem gomod_isName : IsName (IsPathSeparator '/') "go.mod".toList := by
  decide

/-! ## Paths below a root -/

theorem Clean_root_names (sep : Char) (hsep : sep ≠ '.') (R : Str) (names : List Str)
    (hR : isRooted sep R = true) (hnames : names ≠ [])
    (hname : ∀ e ∈ names, IsName (IsPathSeparator sep) e) :
    Clean sep (R ++ sep :: joinElems sep names) =
      rootWithSep sep R ++ joinElems sep names := by
  have hRne : R ≠ [] := by
    rintro rfl
    simp [isRooted] at hR
  have hsplit : splitElems sep (joinElems sep names) = names :=
    splitBy_joinElems _ sep (IsPathSeparator_self sep) names hnames
      (fun e he => (hname e he).2.2.2)
  have hst : cleanStack sep (R ++ sep :: joinElems sep names) =
      names.reverse ++ cleanStack sep R := by
    rw [cleanStack_append_sep sep R sep _ hRne (IsPathSeparator_self sep), hsplit]
    exact foldl_cleanStep_names _ _ names hname _
  have hro : isRooted sep (R ++ sep :: joinElems sep names) = true := by
    rw [isRooted_append sep R _ hRne, hR]
  have hX := Clean_of_stack sep (R ++ sep :: joinElems sep names)
  rw [hst, hro, if_pos rfl, List.reverse_append, List.reverse_reverse] at hX
  have hC := Clean_of_stack sep R
  rw [hR, if_pos rfl] at hC
  have hg := cleanStack_good sep R
  by_cases hS : cleanStack sep R = []
  · rw [hS] at hX hC
    simp only [List.reverse_nil, List.nil_append, joinElems] at hX hC
    rw [hX, rootWithSep_of_eq sep R hC]
    rfl
  · have hne : (cleanStack sep R).reverse ≠ [] := by simpa using hS
    have hB : joinElems sep (cleanStack sep R).reverse ≠ [] :=
      joinElems_ne_nil sep _ hne (fun e he =>
        GoodStack_ne_nil _ _ _ hg e (List.mem_reverse.1 he))
    have hCne : Clean sep R ≠ [sep] := by
      rw [hC]
      intro h
      simp at h
      exact hB h
    rw [hX, rootWithSep_of_ne sep hsep R hCne, hC,
      joinElems_append sep _ names hne hnames]
    simp

theorem hasSubdir_names (sep : Char) (hsep : sep ≠ '.') (root dir R : Str)
    (names : List Str) (hR : isRooted sep R = true) (hnames : names ≠ [])
    (hname : ∀ e ∈ names, IsName (IsPathSeparator sep) e)
    (hroot : Clean sep root = Clean sep R)
    (hdir : Clean sep dir = Clean sep (R ++ sep :: joinElems sep names)) :
    hasSubdir sep root dir = (ToSlash sep (joinElems sep names), true) := by
  rw [hasSubdir_ok_iff]
  refine ⟨joinElems sep names, ?_, rfl⟩
  rw [hdir, Clean_root_names sep hsep R names hR hnames hname,
    rootWithSep_eq_of_Clean_eq sep root R hroot]

theorem hasSubdir_names_other (sep : Char) (hsep : sep ≠ '.') (root dir R other : Str)
    (names : List Str) (hR : isRooted sep R = true) (hnames : names ≠ [])
    (hname : ∀ e ∈ names, IsName (IsPathSeparator sep) e)
    (h1 : ¬ rootWithSep sep other <+: rootWithSep sep R)
    (h2 : ¬ rootWithSep sep R <+: rootWithSep sep other)
    (hroot : Clean sep root = Clean sep other)
    (hdir : Clean sep dir = Clean sep (R ++ sep :: joinElems sep names)) :
    hasSubdir sep root dir = ([], false) := by
  apply hasSubdir_fail_of_not_pre
  rintro ⟨rest, hrest⟩
  rw [hdir, Clean_root_names sep hsep R names hR hnames hname,
    rootWithSep_eq_of_Clean_eq sep root other hroot] at hrest
  have p1 : rootWithSep sep R <+: rootWithSep sep R ++ joinElems sep names :=
    List.prefix_append _ _
  have p2 : rootWithSep sep other <+: rootWithSep sep R ++ joinElems sep names := by
    rw [hrest]
    exact List.prefix_append _ _
  rcases List.prefix_or_prefix_of_prefix p1 p2 with h | h
  · exact h2 h
  · exact h1 h


/-! ## hasSubdir on path elements -/

theorem joinElems_cons_head (j c : Char) (e : Str) (es : List Str) :
    joinElems j ((c :: e) :: es) = c :: joinElems j (e :: es) := by
  cases es with
  | nil => rfl
  | cons e2 r2 => rfl

theorem joinElems_splitBy (isSep : Char → Bool) (j : Char) (s : Str) :
    joinElems j (splitBy isSep s) = s.map (fun c => if isSep c then j else c) := by
  induction s with
  | nil => rfl
  | cons c cs ih =>
    by_cases hc : isSep c = true
    · rw [splitBy_cons_sep isSep c cs hc]
      cases hsp : splitBy isSep cs with
      | nil => exact absurd hsp (splitBy_ne_nil isSep cs)
      | cons e es =>
        rw [hsp] at ih
        rw [joinElems_cons_cons, ih]
        simp [hc]
    · have hc' : isSep c = false := by simpa using hc
      obtain ⟨e, es, e1, e2⟩ := splitBy_cons_other isSep c cs hc'
      rw [e1] at ih
      rw [e2, joinElems_cons_head, ih]
      simp [hc']

theorem ToSlash_eq_map (sep : Char) (s : Str) :
    ToSlash sep s = s.map (fun c => if IsPathSeparator sep c then '/' else c) := by
  unfold ToSlash
  split
  · rename_i h
    subst h
    have : ∀ c : Char, (if IsPathSeparator '/' c then '/' else c) = c := by
      intro c
      by_cases hc : c = '/'
      · simp [hc]
      · simp [IsPathSeparator, hc]
    simp [this]
  · rename_i h
    apply List.map_congr_left
    intro c _
    by_cases hc : c = sep
    · simp [hc, IsPathSeparator]
    · by_cases hc2 : c = '/'
      · simp [hc2, IsPathSeparator]
      · simp [hc, hc2, IsPathSeparator]

theorem ToSlash_eq_joinElems (sep : Char) (s : Str) :
    ToSlash sep s = joinElems '/' (splitElems sep s) := by
  rw [ToSlash_eq_map]
  unfold splitElems
  rw [joinElems_splitBy]

theorem ToSlash_joinElems (sep : Char) (es : List Str)
    (h : ∀ e ∈ es, ∀ c ∈ e, IsPathSeparator sep c = false) :
    ToSlash sep (joinElems sep es) = joinElems '/' es := by
  by_cases hne : es = []
  · subst hne
    simp [joinElems, ToSlash]
  · rw [ToSlash_eq_joinElems]
    unfold splitElems
    rw [splitBy_joinElems _ sep (IsPathSeparator_self sep) es hne h]

theorem mem_joinElems (j : Char) (es : List Str) (c : Char) (h : c ∈ joinElems j es) :
    c = j ∨ ∃ e ∈ es, c ∈ e := by
  induction es with
  | nil => simp [joinElems] at h
  | cons e rest ih =>
    cases rest with
    | nil =>
      exact Or.inr ⟨e, List.mem_cons_self _ _, by simpa [joinElems] using h⟩
    | cons e2 r2 =>
      rw [joinElems_cons_cons] at h
      rcases List.mem_append.1 h with h1 | h1
      · exact Or.inr ⟨e, List.mem_cons_self _ _, h1⟩
      · rcases List.mem_cons.1 h1 with h2 | h2
        · exact Or.inl h2
        · rcases ih h2 with h3 | ⟨x, hx, hcx⟩
          · exact Or.inl h3
          · exact Or.inr ⟨x, List.mem_cons_of_mem _ hx, hcx⟩

/-- The cleaned path and the root `hasSubdir` compares, for a path whose element
stack is not empty. -/
theorem Clean_forms_stack (sep : Char) (hsep : sep ≠ '.') (p : Str)
    (hS : cleanStack sep p ≠ []) :
    joinElems sep (cleanStack sep p).reverse ≠ [] ∧
    Clean sep p = (if isRooted sep p then [sep] else []) ++
      joinElems sep (cleanStack sep p).reverse ∧
    rootWithSep sep p = (if isRooted sep p then [sep] else []) ++
      joinElems sep (cleanStack sep p).reverse ++ [sep] := by
  have hdot := isPathSeparator_dot sep hsep
  have hg := cleanStack_good sep p
  have hne : (cleanStack sep p).reverse ≠ [] := by simpa using hS
  have hB : joinElems sep (cleanStack sep p).reverse ≠ [] :=
    joinElems_ne_nil sep _ hne (fun e he =>
      GoodStack_ne_nil _ _ _ hg e (List.mem_reverse.1 he))
  have hC : Clean sep p = (if isRooted sep p then [sep] else []) ++
      joinElems sep (cleanStack sep p).reverse := by
    rw [Clean_of_stack]
    cases hr : isRooted sep p with
    | true => simp
    | false => simp [hB]
  have hCne : Clean sep p ≠ [sep] := by
    intro h
    cases hr : isRooted sep p with
    | true =>
      rw [hC, hr] at h
      simp at h
      exact hB h
    | false =>
      have h1 := isRooted_joinElems_good sep _ _ hdot hg
      rw [hC, hr] at h
      simp only [Bool.false_eq_true, if_false, List.nil_append] at h
      rw [h] at h1
      simp [isRooted, IsPathSeparator_self] at h1
  refine ⟨hB, hC, ?_⟩
  rw [rootWithSep_of_ne sep hsep p hCne, hC]

theorem Clean_forms_root (sep : Char) (p : Str) (hS : cleanStack sep p = [])
    (hr : isRooted sep p = true) : Clean sep p = [sep] ∧ rootWithSep sep p = [sep] := by
  have hC : Clean sep p = [sep] := by
    rw [Clean_of_stack, hS, hr]
    rfl
  exact ⟨hC, rootWithSep_of_eq sep p hC⟩

theorem Clean_forms_dot (sep : Char) (hsep : sep ≠ '.') (p : Str)
    (hS : cleanStack sep p = []) (hr : isRooted sep p = false) :
    Clean sep p = ['.'] ∧ rootWithSep sep p = ['.', sep] := by
  have hC : Clean sep p = ['.'] := by
    rw [Clean_of_stack, hS, hr]
    rfl
  refine ⟨hC, ?_⟩
  rw [rootWithSep_of_ne sep hsep p (by
    rw [hC]
    intro h
    simp at h
    exact hsep h.symm), hC]
  rfl

theorem hasSubdir_elements (sep : Char) (hsep : sep ≠ '.') (root dir rel : Str) :
    hasSubdir sep root dir = (rel, true) ↔
      isRooted sep root = isRooted sep dir ∧
      ∃ ext, cleanStack sep dir = ext ++ cleanStack sep root ∧
        rel = joinElems '/' ext.reverse ∧
        (ext = [] → isRooted sep root = true ∧ cleanStack sep root = []) ∧
        (isRooted sep root = false → cleanStack sep root ≠ []) := by
  have hdot := isPathSeparator_dot sep hsep
  have hself := IsPathSeparator_self sep
  have gR := cleanStack_good sep root
  have gD := cleanStack_good sep dir
  have nsD : ∀ e ∈ (cleanStack sep dir).reverse, ∀ c ∈ e, IsPathSeparator sep c = false :=
    fun e he => GoodStack_noSep _ hdot _ _ gD e (List.mem_reverse.1 he)
  have nsR : ∀ e ∈ (cleanStack sep root).reverse, ∀ c ∈ e, IsPathSeparator sep c = false :=
    fun e he => GoodStack_noSep _ hdot _ _ gR e (List.mem_reverse.1 he)
  rw [hasSubdir_ok_iff]
  constructor
  · rintro ⟨rest, hrest, rfl⟩
    by_cases hSR : cleanStack sep root = []
    · cases hrR : isRooted sep root with
      | false =>
        exfalso
        rw [(Clean_forms_dot sep hsep root hSR hrR).2] at hrest
        exact Clean_not_dot_sep sep hsep dir sep hself rest hrest
      | true =>
        rw [(Clean_forms_root sep root hSR hrR).2] at hrest
        have hrD : isRooted sep dir = true := by
          rw [← isRooted_Clean sep hdot dir, hrest]
          exact hself
        have hJ : joinElems sep (cleanStack sep dir).reverse = rest := by
          have hC := Clean_of_stack sep dir
          rw [hrD, if_pos rfl, hrest] at hC
          simpa using hC.symm
        refine ⟨by rw [hrD], cleanStack sep dir, by rw [hSR, List.append_nil], ?_, ?_, ?_⟩
        · rw [← hJ, ToSlash_joinElems sep _ nsD]
        · intro _
          exact ⟨rfl, hSR⟩
        · intro h
          cases h
    · obtain ⟨hB, _, hW⟩ := Clean_forms_stack sep hsep root hSR
      rw [hW] at hrest
      have hrr : isRooted sep dir = isRooted sep root := by
        rw [← isRooted_Clean sep hdot dir, hrest]
        cases hrR : isRooted sep root with
        | true => simp [isRooted, hself]
        | false =>
          simp only [Bool.false_eq_true, if_false, List.nil_append, List.append_assoc]
          rw [isRooted_append sep _ _ hB]
          exact isRooted_joinElems_good sep _ _ hdot gR
      by_cases hSD : cleanStack sep dir = []
      · exfalso
        have hlen : (Clean sep dir).length = 1 := by
          cases hrD : isRooted sep dir with
          | true => rw [(Clean_forms_root sep dir hSD hrD).1]; rfl
          | false => rw [(Clean_forms_dot sep hsep dir hSD hrD).1]; rfl
        rw [hrest] at hlen
        simp only [List.length_append, List.length_singleton] at hlen
        have : 0 < (joinElems sep (cleanStack sep root).reverse).length :=
          List.length_pos.2 hB
        omega
      · obtain ⟨_, hCD, _⟩ := Clean_forms_stack sep hsep dir hSD
        rw [hCD, hrr] at hrest
        have hbody : joinElems sep (cleanStack sep dir).reverse =
            joinElems sep (cleanStack sep root).reverse ++ sep :: rest := by
          have := hrest
          simp only [List.append_assoc] at this
          have h2 := List.append_cancel_left this
          simpa using h2
        have hsplit := congrArg (splitBy (IsPathSeparator sep)) hbody
        rw [splitBy_joinElems _ sep hself _ (by simpa using hSD) nsD,
          splitBy_append_sep _ _ sep rest hself,
          splitBy_joinElems _ sep hself _ (by simpa using hSR) nsR] at hsplit
        have hstack : cleanStack sep dir =
            (splitElems sep rest).reverse ++ cleanStack sep root := by
          have := congrArg List.reverse hsplit
          simpa [splitElems] using this
        refine ⟨hrr.symm, (splitElems sep rest).reverse, hstack, ?_, ?_, ?_⟩
        · rw [List.reverse_reverse, ToSlash_eq_joinElems]
        · intro h
          exfalso
          have : splitElems sep rest = [] := by simpa using h
          exact splitBy_ne_nil _ rest this
        · intro _
          exact hSR
  · rintro ⟨hrr, ext, hext, rfl, h1, h2⟩
    have nsE : ∀ e ∈ ext.reverse, ∀ c ∈ e, IsPathSeparator sep c = false := by
      intro e he
      apply GoodStack_noSep _ hdot _ _ gD e
      rw [hext]
      exact List.mem_append_left _ (List.mem_reverse.1 he)
    refine ⟨joinElems sep ext.reverse, ?_, (ToSlash_joinElems sep _ nsE).symm⟩
    by_cases hSR : cleanStack sep root = []
    · cases hrR : isRooted sep root with
      | false => exact absurd hSR (h2 hrR)
      | true =>
        rw [(Clean_forms_root sep root hSR hrR).2, Clean_of_stack, ← hrr, hrR, if_pos rfl,
          hext, hSR, List.append_nil]
        rfl
    · have hE : ext ≠ [] := fun h => hSR (h1 h).2
      have hSD : cleanStack sep dir ≠ [] := by
        rw [hext]
        simp [hE]
      obtain ⟨_, hCD, _⟩ := Clean_forms_stack sep hsep dir hSD
      obtain ⟨_, _, hW⟩ := Clean_forms_stack sep hsep root hSR
      rw [hCD, hW, ← hrr, hext, List.reverse_append,
        joinElems_append sep _ _ (by simpa using hSR) (by simpa using hE)]
      simp

theorem cleanStack_name (sep : Char) (e : Str) (he : IsName (IsPathSeparator sep) e) :
    cleanStack sep e = [e] := by
  unfold cleanStack splitElems
  rw [splitBy_of_noSep _ e he.2.2.2]
  simp only [List.foldl_cons, List.foldl_nil]
  exact cleanStep_name _ _ _ _ he

theorem cleanStack_after_sep (sep : Char) (pre : Str)
    (hpre : pre = [] ∨ ∃ q c, pre = q ++ [c] ∧ IsPathSeparator sep c = true) :
    ∃ below : List Str, ∀ e, IsName (IsPathSeparator sep) e →
      cleanStack sep (pre ++ e) = e :: below := by
  rcases hpre with rfl | ⟨q, c, rfl, hc⟩
  · exact ⟨[], fun e he => by rw [List.nil_append]; exact cleanStack_name sep e he⟩
  · by_cases hq : q = []
    · subst hq
      refine ⟨[], fun e he => ?_⟩
      rw [List.nil_append, List.singleton_append, cleanStack_of_rooted sep c e hc]
      unfold splitElems
      rw [splitBy_of_noSep _ e he.2.2.2]
      simp only [List.foldl_cons, List.foldl_nil]
      exact cleanStep_name _ _ _ _ he
    · refine ⟨cleanStack sep q, fun e he => ?_⟩
      rw [List.append_assoc, List.singleton_append, cleanStack_append_sep sep q c e hq hc]
      unfold splitElems
      rw [splitBy_of_noSep _ e he.2.2.2]
      simp only [List.foldl_cons, List.foldl_nil]
      exact cleanStep_name _ _ _ _ he

theorem isName_append (isSep : Char → Bool) (name x : Str) (hn : IsName isSep name)
    (hx : ∀ c ∈ x, isSep c = false) : IsName isSep (name ++ x) := by
  obtain ⟨h1, h2, h3, h4⟩ := hn
  by_cases hxe : x = []
  · subst hxe
    rw [List.append_nil]
    exact ⟨h1, h2, h3, h4⟩
  · refine ⟨by simp [h1], ?_, ?_, ?_⟩
    · intro h
      have hl := congrArg List.length h
      simp only [List.length_append, List.length_singleton] at hl
      have := List.length_pos.2 h1
      have := List.length_pos.2 hxe
      omega
    · intro h
      cases name with
      | nil => exact h1 rfl
      | cons a as =>
        cases as with
        | nil =>
          cases x with
          | nil => exact hxe rfl
          | cons b bs =>
            simp only [List.singleton_append, List.cons.injEq] at h
            exact h2 (by rw [h.1])
        | cons a2 as2 =>
          have hl := congrArg List.length h
          simp only [List.length_append, List.length_cons, List.length_nil] at hl
          have := List.length_pos.2 hxe
          omega
    · intro c hc
      rcases List.mem_append.1 hc with h | h
      · exact h4 c h
      · exact hx c h

theorem hasSubdir_extends_last (sep : Char) (hsep : sep ≠ '.') (pre name x : Str)
    (hpre : pre = [] ∨ ∃ q c, pre = q ++ [c] ∧ IsPathSeparator sep c = true)
    (hname : IsName (IsPathSeparator sep) name) (hx : x ≠ [])
    (hxs : ∀ c ∈ x, IsPathSeparator sep c = false) :
    hasSubdir sep (pre ++ name) (pre ++ (name ++ x)) = ([], false) := by
  apply hasSubdir_snd_false
  by_contra hne
  have htrue : (hasSubdir sep (pre ++ name) (pre ++ (name ++ x))).2 = true := by
    simpa using hne
  have hpair : hasSubdir sep (pre ++ name) (pre ++ (name ++ x)) =
      ((hasSubdir sep (pre ++ name) (pre ++ (name ++ x))).1, true) := by
    rw [← htrue]
  obtain ⟨_, ext, hext, _, _, _⟩ := (hasSubdir_elements sep hsep _ _ _).1 hpair
  obtain ⟨below, hb⟩ := cleanStack_after_sep sep pre hpre
  rw [hb name hname, hb (name ++ x) (isName_append _ name x hname hxs)] at hext
  have hl := congrArg List.length hext
  simp only [List.length_cons, List.length_append] at hl
  have he : ext = [] := List.length_eq_zero.1 (by omega)
  rw [he, List.nil_append] at hext
  have hh := (List.cons.inj hext).1
  have hl2 := congrArg List.length hh
  simp only [List.length_append] at hl2
  have := List.length_pos.2 hx
  omega

theorem hasSubdir_rel_slashes (sep : Char) (hsep : sep ≠ '.') (root dir rel : Str)
    (h : hasSubdir sep root dir = (rel, true)) :
    ∀ c ∈ rel, IsPathSeparator sep c = true → c = '/' := by
  obtain ⟨_, ext, hext, rfl, _, _⟩ := (hasSubdir_elements sep hsep root dir rel).1 h
  intro c hc hsepc
  rcases mem_joinElems '/' _ c hc with h1 | ⟨e, he, hce⟩
  · exact h1
  · exfalso
    have hmem : e ∈ cleanStack sep dir := by
      rw [hext]
      exact List.mem_append_left _ (List.mem_reverse.1 he)
    have := GoodStack_noSep _ (isPathSeparator_dot sep hsep) _ _
      (cleanStack_good sep dir) e hmem c hce
    rw [this] at hsepc
    cases hsepc

/-- C4: `hasSubdir root dir` succeeds exactly when the cleaned `dir` starts with
the cleaned `root` followed by a separator (one separator appended to the cleaned
root unless it already ends in one); on success the result is the remainder of
the cleaned `dir` after that prefix, with separators turned into slashes; on
failure the result is the empty string with `false`.  In terms of path
elements: it succeeds exactly when both paths are rooted or both are not and
the elements of the cleaned `dir` are those of the cleaned `root` followed by
further ones, at least one unless the root is the file-system root, and the
result is the further elements joined by slashes, so that it contains no other
separator of the host.  A directory that only extends the last element of the
root is never matched. -/
theorem hasSubdir_spec (sep : Char) (hsep : sep ≠ '.') (root dir : Str) :
    ((hasSubdir sep root dir).2 = true ↔
      ∃ rest, Clean sep dir = rootWithSep sep root ++ rest) ∧
    (∀ rest, Clean sep dir = rootWithSep sep root ++ rest →
      hasSubdir sep root dir = (ToSlash sep rest, true)) ∧
    ((hasSubdir sep root dir).2 = false → hasSubdir sep root dir = ([], false)) ∧
    (∀ rel, hasSubdir sep root dir = (rel, true) ↔
      isRooted sep root = isRooted sep dir ∧
      ∃ ext, cleanStack sep dir = ext ++ cleanStack sep root ∧
        rel = joinElems '/' ext.reverse ∧
        (ext = [] → isRooted sep root = true ∧ cleanStack sep root = []) ∧
        (isRooted sep root = false → cleanStack sep root ≠ [])) ∧
    (∀ rel, hasSubdir sep root dir = (rel, true) →
      ∀ c ∈ rel, IsPathSeparator sep c = true → c = '/') ∧
    (∀ pre name x,
      (pre = [] ∨ ∃ q c, pre = q ++ [c] ∧ IsPathSeparator sep c = true) →
      IsName (IsPathSeparator sep) name → x ≠ [] →
      (∀ c ∈ x, IsPathSeparator sep c = false) →
      hasSubdir sep (pre ++ name) (pre ++ (name ++ x)) = ([], false)) ∧
    hasSubdir '/' "/src/foo".toList "/src/foobar".toList = ([], false) ∧
    hasSubdir '/' "/src//foo/../foo/".toList "/src/./foo/bar//baz/".toList =
      ("bar/baz".toList, true) ∧
    hasSubdir '\\' "\\src\\foo".toList "\\src\\foo\\bar\\baz".toList =
      ("bar/baz".toList, true) ∧
    hasSubdir '\\' "\\src/foo\\".toList "/src\\foo\\..\\foo\\bar".toList =
      ("bar".toList, true) := by
  refine ⟨?_, ?_, ?_, fun rel => hasSubdir_elements sep hsep root dir rel,
    fun rel h => hasSubdir_rel_slashes sep hsep root dir rel h,
    fun pre name x hpre hname hx hxs => hasSubdir_extends_last sep hsep pre name x hpre hname
      hx hxs, by decide, by decide, by decide, by decide⟩
  · rw [hasSubdir_eq]
    constructor
    · intro h
      split at h
      · rename_i hp
        obtain ⟨rest, hrest⟩ := List.isPrefixOf_iff_prefix.1 hp
        exact ⟨rest, hrest.symm⟩
      · simp at h
    · rintro ⟨rest, hrest⟩
      have hp : (rootWithSep sep root).isPrefixOf (Clean sep dir) = true :=
        List.isPrefixOf_iff_prefix.2 ⟨rest, hrest.symm⟩
      simp [hp]
  · intro rest h
    have hp : (rootWithSep sep root).isPrefixOf (Clean sep dir) = true :=
      List.isPrefixOf_iff_prefix.2 ⟨rest, h.symm⟩
    rw [hasSubdir_eq, if_pos hp, h]
    simp
  · rw [hasSubdir_eq]
    split
    · simp
    · intro _; rfl

/-- C4, at a host whose separator is the backslash: below the root `\src\foo`,
written with either separator, the directory `\src\foo\bar\baz` has the relative
path `bar/baz`, and `\src\foobar` is not matched. -/
theorem hasSubdir_spec_witness :
    ('\\' : Char) ≠ '.' ∧
    hasSubdir '\\' "\\src/foo".toList "\\src\\foo\\bar\\baz\\".toList =
      ("bar/baz".toList, true) ∧
    hasSubdir '\\' "\\src\\foo".toList "\\src\\foobar".toList = ([], false) :=
  ⟨by decide,
   ((hasSubdir_spec '\\' (by decide) "\\src/foo".toList
      "\\src\\foo\\bar\\baz\\".toList).2.2.2.1 "bar/baz".toList).2
      ⟨by decide, ["baz".toList, "bar".toList], by decide, by decide, by decide, by decide⟩,
   (hasSubdir_spec '\\' (by decide) "\\src\\foo".toList "\\src\\foobar".toList).2.2.2.2.2.1
      "\\src\\".toList "foo".toList "bar".toList
      (Or.inr ⟨"\\src".toList, '\\', by decide, by decide⟩) (by decide) (by decide)
      (by decide)⟩

/-- C10: a root is not a subdirectory of itself.  Whenever the root argument's
cleaned form is not the file-system root, `hasSubdir` fails on the root against
itself, each argument with or without a trailing separator; every success
against such a root returns a non-empty relative path; and on a Unix host,
without a `HasSubdir` hook and without symbolic links, the comparison
`ContainingPackage` makes for a file directly in a source root fails, so that
with this root alone the result is that of the go.mod fallback. -/
theorem hasSubdir_root_itself (sep : Char) (hsep : sep ≠ '.') (root : Str) (c : Char)
    (hc : IsPathSeparator sep c = true) :
    (∀ a ∈ [root, root ++ [c]], ∀ b ∈ [root, root ++ [c]],
      Clean sep a ≠ [sep] → hasSubdir sep a b = ([], false)) ∧
    (∀ dir rel, Clean sep root ≠ [sep] → hasSubdir sep root dir = (rel, true) → rel ≠ []) ∧
    (∀ (ctxt : Context) (fs : FileSystem) (dir f : Str),
      ctxt.HasSubdir = none →
      (∀ p, fs.EvalSymlinks p = Clean '/' p ∨ fs.EvalSymlinks p = []) →
      (∀ x ∈ f, x ≠ '/') →
      Clean '/' (root ++ ['/']) ≠ ['/'] →
      IsAbsPath ctxt (root ++ '/' :: f) = true →
      HasSubdir '/' ctxt fs (ToSlash '/' root ++ ['/'])
          (pathDir (ToSlash '/' (root ++ '/' :: f)) ++ ['/']) = ([], false) ∧
        (ctxt.SrcDirs = [root] →
          containingPackageOutcome ctxt fs dir (root ++ '/' :: f) =
            gomodFallback fs (root ++ '/' :: f))) := by
  refine ⟨?_, ?_, ?_⟩
  · intro a ha b hb hne
    by_cases hroot : root = []
    · subst hroot
      simp only [List.nil_append, List.mem_cons, List.mem_singleton, List.not_mem_nil,
        or_false] at ha hb
      rcases ha with rfl | rfl
      · exact hasSubdir_nil_root sep hsep b
      · exfalso
        apply hne
        simp [Clean, cleanStack, splitElems, splitBy, cleanStep, isRooted, joinElems, hc]
    · have hcl : Clean sep (root ++ [c]) = Clean sep root := Clean_append_sep sep root c hroot hc
      have ha' : Clean sep a = Clean sep root := by
        simp only [List.mem_cons, List.mem_singleton, List.not_mem_nil, or_false] at ha
        rcases ha with rfl | rfl
        · rfl
        · exact hcl
      have hb' : Clean sep b = Clean sep root := by
        simp only [List.mem_cons, List.mem_singleton, List.not_mem_nil, or_false] at hb
        rcases hb with rfl | rfl
        · rfl
        · exact hcl
      exact hasSubdir_same_Clean sep hsep a b hne (hb'.trans ha'.symm)
  · intro dir rel hne h
    exact hasSubdir_rel_ne_nil sep hsep root dir rel hne h
  · intro ctxt fs dir f hctx hsym hf hne habs
    have hsl : ('/' : Char) ≠ '.' := by decide
    have hroot : root ≠ [] := by
      rintro rfl
      exact hne (by decide)
    have hpd : pathDir (root ++ '/' :: f) = Clean '/' root := pathDir_file root f hroot hf
    have hT : ∀ s : Str, ToSlash '/' s = s := fun s => by simp [ToSlash]
    have h1 : HasSubdir '/' ctxt fs (ToSlash '/' root ++ ['/'])
        (pathDir (ToSlash '/' (root ++ '/' :: f)) ++ ['/']) = ([], false) := by
      rw [hT, hT, hpd]
      apply HasSubdir_without_symlinks '/' hsl ctxt fs _ _ hctx (hsym _) (hsym _)
      apply hasSubdir_same_Clean '/' hsl _ _ hne
      rw [Clean_append_sep '/' _ '/' (Clean_ne_nil '/' root) (by decide),
        Clean_idem '/' (by decide), Clean_append_sep '/' root '/' hroot (by decide)]
    refine ⟨h1, ?_⟩
    intro hsrc
    have hres : resolveFilename ctxt dir (root ++ '/' :: f) = root ++ '/' :: f := by
      simp [resolveFilename, habs]
    unfold containingPackageOutcome
    simp only [hres]
    rw [hsrc]
    simp only [srcRootLoop]
    rw [h1]
    simp

/-- C10, at a concrete input: the source root `/gopath/src`, with and without a
trailing slash. -/
theorem hasSubdir_root_itself_witness :
    IsPathSeparator '/' '/' = true ∧
    hasSubdir '/' "/gopath/src/".toList "/gopath/src/".toList = ([], false) ∧
    hasSubdir '/' "/gopath/src".toList "/gopath/src/".toList = ([], false) :=
  ⟨by decide,
   (hasSubdir_root_itself '/' (by decide) "/gopath/src".toList '/' (by decide)).1
     "/gopath/src/".toList (by decide) "/gopath/src/".toList (by decide) (by decide),
   (hasSubdir_root_itself '/' (by decide) "/gopath/src".toList '/' (by decide)).1
     "/gopath/src".toList (by decide) "/gopath/src/".toList (by decide) (by decide)⟩

/-- C5: without a `HasSubdir` hook, `HasSubdir` is the first success among the
comparisons (root, dir), (resolved root, dir), (root, resolved dir), (resolved
root, resolved dir), and fails only if all four fail.  A failed resolution (the
empty path) matches nothing, so with both resolutions failed the result is the
unresolved comparison.  When a link and its target are rooted paths of which
neither lies below the other, a root given as the target or as the link and a
directory given below the target or below the link, both resolving to the
target's side, yield the relative path of the directory below the target. -/
theorem HasSubdir_four_tries (sep : Char) (hsep : sep ≠ '.') (ctxt : Context)
    (fs : FileSystem) (root dir : Str) (hctx : ctxt.HasSubdir = none) :
    (HasSubdir sep ctxt fs root dir =
      if (hasSubdir sep root dir).2 then hasSubdir sep root dir
      else if (hasSubdir sep (fs.EvalSymlinks root) dir).2 then
        hasSubdir sep (fs.EvalSymlinks root) dir
      else if (hasSubdir sep root (fs.EvalSymlinks dir)).2 then
        hasSubdir sep root (fs.EvalSymlinks dir)
      else hasSubdir sep (fs.EvalSymlinks root) (fs.EvalSymlinks dir)) ∧
    ((HasSubdir sep ctxt fs root dir).2 = false ↔
      (hasSubdir sep root dir).2 = false ∧
      (hasSubdir sep (fs.EvalSymlinks root) dir).2 = false ∧
      (hasSubdir sep root (fs.EvalSymlinks dir)).2 = false ∧
      (hasSubdir sep (fs.EvalSymlinks root) (fs.EvalSymlinks dir)).2 = false) ∧
    (∀ p, hasSubdir sep [] p = ([], false) ∧ hasSubdir sep p [] = ([], false)) ∧
    (fs.EvalSymlinks root = [] → fs.EvalSymlinks dir = [] →
      HasSubdir sep ctxt fs root dir = hasSubdir sep root dir) ∧
    (∀ (target link : Str) (names : List Str),
      isRooted sep target = true → isRooted sep link = true →
      names ≠ [] → (∀ e ∈ names, IsName (IsPathSeparator sep) e) →
      ¬ rootWithSep sep target <+: rootWithSep sep link →
      ¬ rootWithSep sep link <+: rootWithSep sep target →
      (Clean sep root = Clean sep target ∨ Clean sep root = Clean sep link) →
      (Clean sep dir = Clean sep (target ++ sep :: joinElems sep names) ∨
        Clean sep dir = Clean sep (link ++ sep :: joinElems sep names)) →
      Clean sep (fs.EvalSymlinks root) = Clean sep target →
      Clean sep (fs.EvalSymlinks dir) = Clean sep (target ++ sep :: joinElems sep names) →
      HasSubdir sep ctxt fs root dir = (ToSlash sep (joinElems sep names), true)) := by
  have hform := HasSubdir_of_none sep ctxt fs root dir hctx
  refine ⟨hform, ?_, ?_, ?_, ?_⟩
  · rw [hform]
    cases h1 : (hasSubdir sep root dir).2 <;>
      cases h2 : (hasSubdir sep (fs.EvalSymlinks root) dir).2 <;>
      cases h3 : (hasSubdir sep root (fs.EvalSymlinks dir)).2 <;>
      simp [h1, h2, h3]
  · intro p
    exact ⟨hasSubdir_nil_root sep hsep p, hasSubdir_nil_dir sep hsep p⟩
  · intro hr hd
    rw [hform, hr, hd]
    simp only [hasSubdir_nil_root sep hsep, hasSubdir_nil_dir sep hsep]
    cases h1 : (hasSubdir sep root dir).2
    · simp [hasSubdir_snd_false sep root dir h1]
    · simp
  · intro target link names ht hl hnames hname hn1 hn2 hroot hdir hrs hds
    have good : ∀ r d R, isRooted sep R = true → Clean sep r = Clean sep R →
        Clean sep d = Clean sep (R ++ sep :: joinElems sep names) →
        hasSubdir sep r d = (ToSlash sep (joinElems sep names), true) :=
      fun r d R hR h1 h2 => hasSubdir_names sep hsep r d R names hR hnames hname h1 h2
    rw [hform]
    rcases hroot with hroot | hroot <;> rcases hdir with hdir | hdir
    · rw [good root dir target ht hroot hdir]
      rfl
    · have f1 : hasSubdir sep root dir = ([], false) :=
        hasSubdir_names_other sep hsep root dir link target names hl hnames hname
          hn1 hn2 hroot hdir
      have f2 : hasSubdir sep (fs.EvalSymlinks root) dir = ([], false) :=
        hasSubdir_names_other sep hsep _ dir link target names hl hnames hname
          hn1 hn2 hrs hdir
      rw [f1, f2, good root (fs.EvalSymlinks dir) target ht hroot hds]
      rfl
    · have f1 : hasSubdir sep root dir = ([], false) :=
        hasSubdir_names_other sep hsep root dir target link names ht hnames hname
          hn2 hn1 hroot hdir
      rw [f1, good (fs.EvalSymlinks root) dir target ht hrs hdir]
      rfl
    · rw [good root dir link hl hroot hdir]
      rfl

/-- C5, at the symlink cases of the repository's test: with `/tmp/go/src` a link
to `/gopath/src`, the root, the directory, or both given through the link yield
the relative path `golang.org/x/tools/go/buildutil`. -/
theorem HasSubdir_four_tries_witness :
    ('/' : Char) ≠ '.' ∧ (plainContext [] echoImport).HasSubdir = none ∧
    HasSubdir '/' (plainContext [] echoImport) symlinkTestFS "/gopath/src/".toList
      "/tmp/go/src/golang.org/x/tools/go/buildutil/".toList =
        ("golang.org/x/tools/go/buildutil".toList, true) ∧
    HasSubdir '/' (plainContext [] echoImport) symlinkTestFS "/tmp/go/src/".toList
      "/gopath/src/golang.org/x/tools/go/buildutil/".toList =
        ("golang.org/x/tools/go/buildutil".toList, true) ∧
    HasSubdir '/' (plainContext [] echoImport) symlinkTestFS "/tmp/go/src/".toList
      "/tmp/go/src/golang.org/x/tools/go/buildutil/".toList =
        ("golang.org/x/tools/go/buildutil".toList, true) :=
  ⟨by decide, rfl,
   (HasSubdir_four_tries '/' (by decide) (plainContext [] echoImport) symlinkTestFS
      "/gopath/src/".toList "/tmp/go/src/golang.org/x/tools/go/buildutil/".toList rfl).2.2.2.2
      "/gopath/src".toList "/tmp/go/src".toList
      ["golang.org".toList, "x".toList, "tools".toList, "go".toList, "buildutil".toList]
      (by decide) (by decide) (by decide) (by decide) (by decide) (by decide)
      (by decide) (by decide) (by decide) (by decide),
   (HasSubdir_four_tries '/' (by decide) (plainContext [] echoImport) symlinkTestFS
      "/tmp/go/src/".toList "/gopath/src/golang.org/x/tools/go/buildutil/".toList rfl).2.2.2.2
      "/gopath/src".toList "/tmp/go/src".toList
      ["golang.org".toList, "x".toList, "tools".toList, "go".toList, "buildutil".toList]
      (by decide) (by decide) (by decide) (by decide) (by decide) (by decide)
      (by decide) (by decide) (by decide) (by decide),
   (HasSubdir_four_tries '/' (by decide) (plainContext [] echoImport) symlinkTestFS
      "/tmp/go/src/".toList "/tmp/go/src/golang.org/x/tools/go/buildutil/".toList rfl).2.2.2.2
      "/gopath/src".toList "/tmp/go/src".toList
      ["golang.org".toList, "x".toList, "tools".toList, "go".toList, "buildutil".toList]
      (by decide) (by decide) (by decide) (by decide) (by decide) (by decide)
      (by decide) (by decide) (by decide) (by decide)⟩

/-- C5 as stated, refuted at a concrete input: `/t/l` is a symbolic link to its
parent `/t`, so the directory `/t/l/a` is `/t/a` reached through the link;
against the root `/t` the unresolved comparison succeeds first and returns
`l/a`, where the directory given without the link returns `a`. -/
theorem HasSubdir_nested_link :
    nestedLinkFS.EvalSymlinks "/t/l/a/".toList = "/t/a".toList ∧
    nestedLinkFS.EvalSymlinks "/t/a/".toList = "/t/a".toList ∧
    HasSubdir '/' (plainContext [] echoImport) nestedLinkFS "/t/".toList "/t/a/".toList =
      ("a".toList, true) ∧
    HasSubdir '/' (plainContext [] echoImport) nestedLinkFS "/t/".toList "/t/l/a/".toList =
      ("l/a".toList, true) := by
  decide

/-! ## The upward search -/

theorem findGomodLoop_step (fs : FileSystem) (fuel : Nat) (dir : Str)
    (hl : 1 < byteLen dir) :
    findGomodLoop fs (fuel + 1) dir =
      if fs.stat (Join [Dir dir, "go.mod".toList]) = StatResult.notExist then
        findGomodLoop fs fuel (Dir dir)
      else some (dir, Join [Dir dir, "go.mod".toList], true) := by
  show (if byteLen dir > 1 then _ else _) = _
  rw [if_pos hl]

theorem findGomodLoop_stop (fs : FileSystem) (fuel : Nat) (dir : Str)
    (hl : ¬ 1 < byteLen dir) : findGomodLoop fs fuel dir = some (dir, [], false) := by
  cases fuel with
  | zero =>
    show (if byteLen dir > 1 then _ else _) = _
    rw [if_neg hl]
  | succ n =>
    show (if byteLen dir > 1 then _ else _) = _
    rw [if_neg hl]

theorem findGomodLoop_absent (fs : FileSystem) (fuel : Nat) :
    ∀ dir : Str, byteLen dir ≤ fuel →
      (∀ n, 1 < byteLen (ancestorDir n dir) →
        fs.stat (Join [ancestorDir (n + 1) dir, "go.mod".toList]) = StatResult.notExist) →
      ∃ n, n ≤ fuel ∧ findGomodLoop fs fuel dir = some (ancestorDir n dir, [], false) ∧
        byteLen (ancestorDir n dir) ≤ 1 ∧ ∀ m, m < n → 1 < byteLen (ancestorDir m dir) := by
  induction fuel with
  | zero =>
    intro dir h _
    exact ⟨0, le_refl _, findGomodLoop_stop fs 0 dir (by omega), by
      show byteLen dir ≤ 1
      omega, by intro m hm; omega⟩
  | succ k ih =>
    intro dir h habs
    by_cases hl : 1 < byteLen dir
    · have hs : fs.stat (Join [Dir dir, "go.mod".toList]) = StatResult.notExist := habs 0 hl
      rw [findGomodLoop_step fs k dir hl, if_pos hs]
      obtain ⟨n, hn, e1, e2, e3⟩ := ih (Dir dir)
        (by have := Dir_byteLen_lt dir hl; omega) (fun m hm => habs (m + 1) hm)
      refine ⟨n + 1, by omega, e1, e2, ?_⟩
      intro m hm
      cases m with
      | zero => exact hl
      | succ m => exact e3 m (by omega)
    · exact ⟨0, by omega, findGomodLoop_stop fs _ dir hl, by
        show byteLen dir ≤ 1
        omega, by intro m hm; omega⟩

theorem isRooted_Clean_of_rooted (sep : Char) (path : Str) (h : isRooted sep path = true) :
    ∃ body, Clean sep path = sep :: body :=
  ⟨joinElems sep (cleanStack sep path).reverse, by simp [Clean, h]⟩

theorem isRooted_dirPart (sep : Char) (path : Str) (h : isRooted sep path = true) :
    isRooted sep (dirPart (IsPathSeparator sep) path) = true := by
  cases path with
  | nil => simp [isRooted] at h
  | cons c cs =>
    have hc : IsPathSeparator sep c = true := h
    cases hd : dirPart (IsPathSeparator sep) cs with
    | nil => simp [dirPart, hd, hc, isRooted]
    | cons d ds => simp [dirPart, hd, hc, isRooted]

theorem Dir_rooted (path : Str) (h : isRooted '/' path = true) :
    ∃ body, Dir path = '/' :: body :=
  isRooted_Clean_of_rooted '/' _ (isRooted_dirPart '/' path h)

theorem isRooted_ancestorDir (n : Nat) :
    ∀ dir : Str, isRooted '/' dir = true → isRooted '/' (ancestorDir n dir) = true := by
  induction n with
  | zero => intro dir h; exact h
  | succ n ih =>
    intro dir h
    show isRooted '/' (ancestorDir n (Dir dir)) = true
    apply ih
    obtain ⟨body, hb⟩ := Dir_rooted dir h
    rw [hb]
    rfl

theorem ancestorDir_short_root (n : Nat) (dir : Str)
    (hr : isRooted '/' dir = true) (hl : byteLen (ancestorDir (n + 1) dir) ≤ 1) :
    ancestorDir (n + 1) dir = ['/'] := by
  rw [ancestorDir_succ] at hl ⊢
  obtain ⟨body, hb⟩ := Dir_rooted _ (isRooted_ancestorDir n dir hr)
  rw [hb] at hl ⊢
  rw [byteLen_cons] at hl
  have h1 : utf8Size '/' = 1 := by decide
  have : body = [] := byteLen_eq_zero body (by omega)
  rw [this]

theorem untilNewline_line (line : Str) (h : ∀ c ∈ line, c ≠ '\n') :
    untilNewline line = line := by
  induction line with
  | nil => rfl
  | cons c cs ih =>
    have hc : c ≠ '\n' := h c (List.mem_cons_self _ _)
    have := ih (fun d hd => h d (List.mem_cons_of_mem _ hd))
    simp [untilNewline, hc, this]

theorem untilNewline_append (line rest : Str) (h : ∀ c ∈ line, c ≠ '\n') :
    untilNewline (line ++ '\n' :: rest) = line := by
  induction line with
  | nil => simp [untilNewline]
  | cons c cs ih =>
    have hc : c ≠ '\n' := h c (List.mem_cons_self _ _)
    have := ih (fun d hd => h d (List.mem_cons_of_mem _ hd))
    simp [untilNewline, hc, this]

theorem dropCR_cases (l : Str) :
    dropCR l = l ∨ ∃ init, l = init ++ ['\r'] ∧ dropCR l = init := by
  unfold dropCR
  split
  · rename_i h
    right
    have hne : l ≠ [] := by intro h0; rw [h0] at h; simp at h
    refine ⟨l.dropLast, ?_, rfl⟩
    have h1 := List.dropLast_append_getLast hne
    rw [List.getLast?_eq_getLast _ hne] at h
    have h2 : l.getLast hne = '\r' := Option.some.inj h
    rw [h2] at h1
    exact h1.symm
  · exact Or.inl rfl

theorem Fields_dropCR (l : Str) : Fields (dropCR l) = Fields l := by
  rcases dropCR_cases l with h | ⟨init, h1, h2⟩
  · rw [h]
  · rw [h2, h1]
    unfold Fields
    rw [splitBy_append_sep isSpace init '\r' [] (by decide)]
    simp [splitBy]

theorem isPrefixOf_append_singleton (p init : Str) (c : Char) (hc : c ∉ p) :
    p.isPrefixOf (init ++ [c]) = p.isPrefixOf init := by
  rw [Bool.eq_iff_iff, List.isPrefixOf_iff_prefix, List.isPrefixOf_iff_prefix]
  constructor
  · intro h
    by_cases hl : p.length ≤ init.length
    · exact List.prefix_of_prefix_length_le h (List.prefix_append _ _) hl
    · exfalso
      have hlen := h.length_le
      simp only [List.length_append, List.length_singleton] at hlen
      have heq : p = init ++ [c] := h.eq_of_length (by
        simp only [List.length_append, List.length_singleton]
        omega)
      exact hc (by rw [heq]; simp)
  · intro h
    exact h.trans (List.prefix_append _ _)

theorem module_isPrefixOf_dropCR (l : Str) :
    "module".toList.isPrefixOf (dropCR l) = "module".toList.isPrefixOf l := by
  rcases dropCR_cases l with h | ⟨init, h1, h2⟩
  · rw [h]
  · rw [h2, h1, isPrefixOf_append_singleton _ init '\r' (by decide)]

theorem firstLine_raw (content line : Str) (hne : content ≠ [])
    (hline : untilNewline content = line) (hsize : byteLen line < MaxScanTokenSize) :
    firstLine content = some (dropCR line) := by
  unfold firstLine
  rw [if_neg hne, hline, if_neg (by omega)]

theorem firstLine_too_long (content : Str) (hne : content ≠ [])
    (hsize : MaxScanTokenSize ≤ byteLen (untilNewline content)) :
    firstLine content = none := by
  unfold firstLine
  rw [if_neg hne, if_pos hsize]

theorem parseFirstLine_of_line (content line : Str) (readErr : Option Str)
    (h : firstLine content = some line) :
    parseFirstLine content readErr =
      if !("module".toList.isPrefixOf line) then ([], some "invalid go.mod file".toList)
      else if (Fields line).length ≠ 2 then
        ([], some "invalid module entry in go.mod file".toList)
      else ((Fields line).getD 1 [], none) := by
  unfold parseFirstLine
  rw [h]

theorem parseFirstLine_of_none (content : Str) (readErr : Option Str)
    (h : firstLine content = none) :
    parseFirstLine content readErr =
      ([], some ("failed to read go.mod file first line: ".toList ++
        scanErr content readErr)) := by
  unfold parseFirstLine
  rw [h]

theorem parseFirstLine_raw (content line : Str) (readErr : Option Str) (hne : content ≠ [])
    (hline : untilNewline content = line) (hsize : byteLen line < MaxScanTokenSize) :
    parseFirstLine content readErr =
      if !("module".toList.isPrefixOf line) then ([], some "invalid go.mod file".toList)
      else if (Fields line).length ≠ 2 then
        ([], some "invalid module entry in go.mod file".toList)
      else ((Fields line).getD 1 [], none) := by
  rw [parseFirstLine_of_line content _ readErr (firstLine_raw content line hne hline hsize),
    module_isPrefixOf_dropCR, Fields_dropCR]

theorem parseFirstLine_good (content line : Str) (readErr : Option Str)
    (hne : content ≠ []) (hline : untilNewline content = line)
    (hsize : byteLen line < MaxScanTokenSize)
    (hpre : "module".toList.isPrefixOf line = true) (hlen : (Fields line).length = 2) :
    parseFirstLine content readErr = ((Fields line).getD 1 [], none) := by
  rw [parseFirstLine_raw content line readErr hne hline hsize, hpre,
    if_neg (not_not.2 hlen)]
  rfl

theorem content_first_line (content line : Str) (hline : ∀ c ∈ line, c ≠ '\n')
    (hcontent : (∃ rest, content = line ++ '\n' :: rest) ∨ (content = line ∧ line ≠ [])) :
    content ≠ [] ∧ untilNewline content = line := by
  rcases hcontent with ⟨rest, rfl⟩ | ⟨rfl, hne⟩
  · exact ⟨by simp, untilNewline_append line rest hline⟩
  · exact ⟨hne, untilNewline_line content hline⟩

theorem parseModuleName_of_content (fs : FileSystem) (gomodPath content : Str)
    (readErr : Option Str) (hopen : fs.openFile gomodPath = .ok (content, readErr)) :
    parseModuleName fs gomodPath = parseFirstLine content readErr := by
  unfold parseModuleName
  rw [hopen]

/-- A go.mod that opens but cannot be read, a directory for instance: the read
error is returned behind the prefix of `parseModuleName`. -/
theorem parseModuleName_read_error (fs : FileSystem) (gomodPath err : Str)
    (hopen : fs.openFile gomodPath = .ok ([], some err)) :
    parseModuleName fs gomodPath =
      ([], some ("failed to read go.mod file first line: ".toList ++ err)) := by
  rw [parseModuleName_of_content fs gomodPath [] (some err) hopen]
  rfl

theorem Fields_module (name : Str) (hne : name ≠ []) (hs : ∀ c ∈ name, isSpace c = false) :
    Fields ("module".toList ++ ' ' :: name) = ["module".toList, name] := by
  unfold Fields
  rw [splitBy_append_sep isSpace _ ' ' name (by decide),
    splitBy_of_noSep isSpace "module".toList (by decide), splitBy_of_noSep isSpace name hs]
  cases name with
  | nil => exact absurd rfl hne
  | cons c cs => rfl

theorem byteLen_replicate (n : Nat) (c : Char) :
    byteLen (List.replicate n c) = n * utf8Size c := by
  induction n with
  | zero => simp [byteLen]
  | succ n ih =>
    rw [List.replicate_succ, byteLen_cons, ih]
    ring

theorem moduleLine_no_newline (n : Nat) :
    ∀ c ∈ "module".toList ++ ' ' :: List.replicate n 'a', c ≠ '\n' := by
  intro c hc
  rcases List.mem_append.1 hc with h | h
  · have hm : ∀ d ∈ "module".toList, d ≠ '\n' := by decide
    exact hm c h
  · rcases List.mem_cons.1 h with h | h
    · rw [h]
      decide
    · rw [List.eq_of_mem_replicate h]
      decide

theorem moduleLine_byteLen (n : Nat) :
    n ≤ byteLen ("module".toList ++ ' ' :: List.replicate n 'a') := by
  rw [byteLen_append, byteLen_cons, byteLen_replicate]
  have : utf8Size 'a' = 1 := by decide
  rw [this]
  omega

theorem longLine_no_newline : ∀ c ∈ longLine, c ≠ '\n' :=
  moduleLine_no_newline 65536

theorem longLine_byteLen : MaxScanTokenSize ≤ byteLen longLine :=
  moduleLine_byteLen 65536

theorem srcRootLoop_none (sep : Char) (ctxt : Context) (fs : FileSystem) (dirSlash : Str)
    (roots : List Str)
    (h : ∀ r ∈ roots, (HasSubdir sep ctxt fs (ToSlash sep r ++ ['/']) dirSlash).2 = false) :
    srcRootLoop sep ctxt fs dirSlash roots = none := by
  induction roots with
  | nil => rfl
  | cons r rest ih =>
    have h1 := h r (List.mem_cons_self _ _)
    have h2 := ih (fun x hx => h x (List.mem_cons_of_mem _ hx))
    unfold srcRootLoop
    simp only [h1, Bool.false_eq_true, if_false]
    exact h2

theorem srcRootLoop_first (sep : Char) (ctxt : Context) (fs : FileSystem) (dirSlash : Str)
    (before : List Str) (root : Str) (after : List Str) (rel : Str)
    (h : ∀ r ∈ before, (HasSubdir sep ctxt fs (ToSlash sep r ++ ['/']) dirSlash).2 = false)
    (hroot : HasSubdir sep ctxt fs (ToSlash sep root ++ ['/']) dirSlash = (rel, true)) :
    srcRootLoop sep ctxt fs dirSlash (before ++ root :: after) = some rel := by
  induction before with
  | nil =>
    simp only [List.nil_append]
    unfold srcRootLoop
    simp [hroot]
  | cons r rest ih =>
    have h1 := h r (List.mem_cons_self _ _)
    have h2 := ih (fun x hx => h x (List.mem_cons_of_mem _ hx))
    simp only [List.cons_append]
    unfold srcRootLoop
    simp only [h1, Bool.false_eq_true, if_false]
    exact h2

theorem containingPackageOutcome_fallback (ctxt : Context) (fs : FileSystem)
    (dir filename : Str)
    (hroots : ∀ r ∈ ctxt.SrcDirs,
      (HasSubdir '/' ctxt fs (ToSlash '/' r ++ ['/'])
        (pathDir (ToSlash '/' (resolveFilename ctxt dir filename)) ++ ['/'])).2 = false) :
    containingPackageOutcome ctxt fs dir filename =
      gomodFallback fs (resolveFilename ctxt dir filename) := by
  unfold containingPackageOutcome
  simp only
  rw [srcRootLoop_none '/' ctxt fs _ _ hroots]

theorem ContainingPackage_of_fail (ctxt : Context) (fs : FileSystem)
    (dir filename msg : Str)
    (ho : containingPackageOutcome ctxt fs dir filename = some (.fail msg)) :
    ContainingPackage ctxt fs dir filename = some (none, some msg) := by
  unfold ContainingPackage
  rw [ho]

theorem ContainingPackage_of_callImport (ctxt : Context) (fs : FileSystem)
    (dir filename path srcDir : Str)
    (ho : containingPackageOutcome ctxt fs dir filename = some (.callImport path srcDir)) :
    ContainingPackage ctxt fs dir filename = some (ctxt.Import path srcDir) := by
  unfold ContainingPackage
  rw [ho]

/-- C3 as amended: on a Unix host, when `HasSubdir` fails for every source root
and `os.Stat` reports not-exist for the go.mod of every directory the upward
search visits, `ContainingPackage` returns no package and the error
`go module fallback: failed to find go.mod`, and the run ends without a call of
the backend lookup. -/
theorem ContainingPackage_not_found (ctxt : Context) (fs : FileSystem)
    (dir filename : Str)
    (hroots : ∀ r ∈ ctxt.SrcDirs,
      (HasSubdir '/' ctxt fs (ToSlash '/' r ++ ['/'])
        (pathDir (ToSlash '/' (resolveFilename ctxt dir filename)) ++ ['/'])).2 = false)
    (hgomod : ∀ n, 1 < byteLen (ancestorDir n (resolveFilename ctxt dir filename)) →
      fs.stat (Join [ancestorDir (n + 1) (resolveFilename ctxt dir filename),
        "go.mod".toList]) = StatResult.notExist) :
    containingPackageOutcome ctxt fs dir filename =
      some (.fail "go module fallback: failed to find go.mod".toList) ∧
    ContainingPackage ctxt fs dir filename =
      some (none, some "go module fallback: failed to find go.mod".toList) := by
  obtain ⟨n, _, e1, _, _⟩ :=
    findGomodLoop_absent fs _ (resolveFilename ctxt dir filename) (le_refl _) hgomod
  have hf : findGomodFile fs (resolveFilename ctxt dir filename) = some ([], false) := by
    unfold findGomodFile
    rw [e1]
    rfl
  have ho : containingPackageOutcome ctxt fs dir filename =
      some (.fail "go module fallback: failed to find go.mod".toList) := by
    rw [containingPackageOutcome_fallback ctxt fs dir filename hroots]
    unfold gomodFallback
    rw [hf]
    rfl
  exact ⟨ho, ContainingPackage_of_fail ctxt fs dir filename _ ho⟩

/-- C3 as amended, at a concrete input: one source root, a file outside it, and
a file system without any go.mod. -/
theorem ContainingPackage_not_found_witness :
    ContainingPackage (plainContext ["/gopath/src".toList] echoImport) emptyFS
      "/proj".toList "/proj/sub/x.go".toList =
        some (none, some "go module fallback: failed to find go.mod".toList) :=
  (ContainingPackage_not_found (plainContext ["/gopath/src".toList] echoImport)
    emptyFS "/proj".toList "/proj/sub/x.go".toList (by decide) (fun _ _ => rfl)).2

/-- C3 as stated, refuted at a concrete input: `/a/b` is a regular file, so no
go.mod exists in any ancestor directory of `/a/b/c.go`, and the file is under no
source root; `os.Stat` of `/a/b/go.mod` fails with an error other than
not-exist, the path is taken as found, and `ContainingPackage` returns the
error of parsing it instead of the error of not finding a go.mod. -/
theorem ContainingPackage_stat_failure :
    notDirFS.stat "/a/b/go.mod".toList = StatResult.failed ∧
    notDirFS.stat "/a/go.mod".toList = StatResult.notExist ∧
    notDirFS.stat "/go.mod".toList = StatResult.notExist ∧
    (HasSubdir '/' (plainContext ["/gopath/src".toList] echoImport) notDirFS
      "/gopath/src/".toList "/a/b/".toList).2 = false ∧
    ContainingPackage (plainContext ["/gopath/src".toList] echoImport) notDirFS
      "/a/b".toList "/a/b/c.go".toList =
        some (none, some ("go module fallback: failed to parse module name: ".toList ++
          "open /a/b/go.mod: not a directory".toList)) := by
  decide

/-- C7, refuted at a concrete input: with every file-system hook of the build
context set, the result of `ContainingPackage` for `/tmp/hello/hello.go` still
follows the operating-system file system: with the go.mod of the module test on
disk the module is looked up, with an empty disk the go.mod is reported
missing. -/
theorem ContainingPackage_reads_os_files :
    hookedContext.HasSubdir.isSome = true ∧ hookedContext.OpenFile.isSome = true ∧
    hookedContext.IsAbsPath.isSome = true ∧ hookedContext.JoinPath.isSome = true ∧
    hookedContext.IsDir.isSome = true ∧ hookedContext.ReadDir.isSome = true ∧
    ContainingPackage hookedContext gomodTestFS "/tmp/hello".toList
      "/tmp/hello/hello.go".toList =
        some (some ⟨"golang.org/examples/hello".toList, "/tmp/hello".toList, []⟩, none) ∧
    ContainingPackage hookedContext emptyFS "/tmp/hello".toList
      "/tmp/hello/hello.go".toList =
        some (none, some "go module fallback: failed to find go.mod".toList) := by
  refine ⟨rfl, rfl, rfl, rfl, rfl, rfl, ?_, ?_⟩ <;> decide

/-! ## The go.mod fallback -/

theorem Dir_root : Dir ['/'] = ['/'] := by
  decide

theorem ancestorDir_root_fixed (n : Nat) : ancestorDir n ['/'] = ['/'] := by
  induction n with
  | zero => rfl
  | succ n ih =>
    show ancestorDir n (Dir ['/']) = ['/']
    rw [Dir_root, ih]

theorem ancestorDir_add (m : Nat) :
    ∀ (n : Nat) (dir : Str),
      ancestorDir (n + m) dir = ancestorDir m (ancestorDir n dir) := by
  intro n
  induction n with
  | zero => intro dir; simp [ancestorDir]
  | succ n ih =>
    intro dir
    have : n + 1 + m = (n + m) + 1 := by omega
    rw [this]
    show ancestorDir (n + m) (Dir dir) = ancestorDir m (ancestorDir n (Dir dir))
    exact ih (Dir dir)

theorem ancestorDir_long (fs : FileSystem) (dir : Str) (k : Nat)
    (hr : isRooted '/' dir = true) (hl : 1 < byteLen dir)
    (hnear : ∀ j, j < k →
      fs.stat (Join [ancestorDir (j + 1) dir, "go.mod".toList]) = StatResult.notExist)
    (hex : fs.stat (Join [ancestorDir (k + 1) dir, "go.mod".toList]) = StatResult.found) :
    ∀ j, j ≤ k → 1 < byteLen (ancestorDir j dir) := by
  intro j hj
  cases j with
  | zero => exact hl
  | succ i =>
    by_contra hshort
    have hroot := ancestorDir_short_root i dir hr (by omega)
    have hk : ancestorDir (k + 1) dir = ['/'] := by
      have : k + 1 = (i + 1) + (k - i) := by omega
      rw [this, ancestorDir_add, hroot, ancestorDir_root_fixed]
    have h1 := hnear i (by omega)
    rw [hroot] at h1
    rw [hk, h1] at hex
    cases hex

theorem findGomodLoop_found (fs : FileSystem) (k : Nat) :
    ∀ (fuel : Nat) (dir : Str), byteLen dir ≤ fuel →
      (∀ j, j ≤ k → 1 < byteLen (ancestorDir j dir)) →
      (∀ j, j < k →
        fs.stat (Join [ancestorDir (j + 1) dir, "go.mod".toList]) = StatResult.notExist) →
      fs.stat (Join [ancestorDir (k + 1) dir, "go.mod".toList]) ≠ StatResult.notExist →
      findGomodLoop fs fuel dir =
        some (ancestorDir k dir, Join [ancestorDir (k + 1) dir, "go.mod".toList], true) := by
  induction k with
  | zero =>
    intro fuel dir hf hlong _ hex
    have hl : 1 < byteLen dir := hlong 0 (le_refl _)
    cases fuel with
    | zero => omega
    | succ n =>
      have hex' : fs.stat (Join [Dir dir, "go.mod".toList]) ≠ StatResult.notExist := hex
      rw [findGomodLoop_step fs n dir hl, if_neg hex']
      rfl
  | succ k ih =>
    intro fuel dir hf hlong hnear hex
    have hl : 1 < byteLen dir := hlong 0 (by omega)
    cases fuel with
    | zero => omega
    | succ n =>
      have h0 : fs.stat (Join [Dir dir, "go.mod".toList]) = StatResult.notExist :=
        hnear 0 (by omega)
      rw [findGomodLoop_step fs n dir hl, if_pos h0]
      exact ih n (Dir dir) (by have := Dir_byteLen_lt dir hl; omega)
        (fun j hj => hlong (j + 1) (by omega))
        (fun j hj => hnear (j + 1) (by omega)) hex

theorem parseModuleName_module (fs : FileSystem) (gomodPath content name : Str)
    (hopen : fs.openFile gomodPath = .ok (content, none))
    (hcontent : (∃ rest, content = ("module".toList ++ ' ' :: name) ++ '\n' :: rest) ∨
      content = "module".toList ++ ' ' :: name)
    (hsize : byteLen ("module".toList ++ ' ' :: name) < MaxScanTokenSize)
    (hne : name ≠ []) (hs : ∀ c ∈ name, isSpace c = false) :
    parseModuleName fs gomodPath = (name, none) := by
  have hF := Fields_module name hne hs
  have hnl : ∀ c ∈ "module".toList ++ ' ' :: name, c ≠ '\n' := by
    intro c hc
    rcases List.mem_append.1 hc with h | h
    · have hm : ∀ d ∈ "module".toList, d ≠ '\n' := by decide
      exact hm c h
    · rcases List.mem_cons.1 h with h | h
      · rw [h]
        decide
      · intro h0
        have := hs c h
        rw [h0] at this
        revert this
        decide
  obtain ⟨hcne, hfirst⟩ := content_first_line content _ hnl (by
    rcases hcontent with h | h
    · exact Or.inl h
    · exact Or.inr ⟨h, by simp⟩)
  rw [parseModuleName_of_content fs gomodPath content none hopen,
    parseFirstLine_good content _ none hcne hfirst hsize
      (List.isPrefixOf_iff_prefix.2 ⟨' ' :: name, rfl⟩) (by rw [hF]; rfl), hF]
  rfl

theorem parseModuleName_longLineFS (path : Str) :
    parseModuleName longLineFS path =
      ([], some ("failed to read go.mod file first line: ".toList ++
        "bufio.Scanner: token too long".toList)) := by
  have hne : longLine ≠ [] := List.cons_ne_nil _ _
  have hu := untilNewline_line longLine longLine_no_newline
  rw [parseModuleName_of_content longLineFS _ longLine none rfl,
    parseFirstLine_of_none longLine none
      (firstLine_too_long longLine hne (by rw [hu]; exact longLine_byteLen))]
  unfold scanErr
  rw [if_neg hne]

/-- C2 as amended: on a Unix host, for an absolute filename other than the bare
root that no source root contains, when `os.Stat` reports not-exist for the
go.mod of every directory nearer than `D`, counted from the file's own
directory upwards, the go.mod in `D` exists and is read to its end, and its
first line is `module N`, shorter than the scanner's buffer of 65536 bytes,
whatever follows that line, `ContainingPackage` returns the result of the
backend lookup of `N` with search base `D`. -/
theorem ContainingPackage_gomod (ctxt : Context) (fs : FileSystem) (dir filename : Str)
    (k : Nat) (content name : Str)
    (habs : IsAbsPath ctxt filename = true)
    (hrooted : isRooted '/' filename = true) (hlen : 1 < byteLen filename)
    (hroots : ∀ r ∈ ctxt.SrcDirs,
      (HasSubdir '/' ctxt fs (ToSlash '/' r ++ ['/'])
        (pathDir (ToSlash '/' filename) ++ ['/'])).2 = false)
    (hnear : ∀ j, j < k →
      fs.stat (Join [ancestorDir (j + 1) filename, "go.mod".toList]) = StatResult.notExist)
    (hexists :
      fs.stat (Join [ancestorDir (k + 1) filename, "go.mod".toList]) = StatResult.found)
    (hopen : fs.openFile (Join [ancestorDir (k + 1) filename, "go.mod".toList]) =
      .ok (content, none))
    (hcontent : (∃ rest, content = ("module".toList ++ ' ' :: name) ++ '\n' :: rest) ∨
      content = "module".toList ++ ' ' :: name)
    (hsize : byteLen ("module".toList ++ ' ' :: name) < MaxScanTokenSize)
    (hname : name ≠ []) (hspace : ∀ c ∈ name, isSpace c = false) :
    containingPackageOutcome ctxt fs dir filename =
      some (.callImport name (ancestorDir (k + 1) filename)) ∧
    ContainingPackage ctxt fs dir filename =
      some (ctxt.Import name (ancestorDir (k + 1) filename)) := by
  have hres : resolveFilename ctxt dir filename = filename := by
    simp [resolveFilename, habs]
  have hfind : findGomodFile fs filename =
      some (Join [ancestorDir (k + 1) filename, "go.mod".toList], true) := by
    unfold findGomodFile
    rw [findGomodLoop_found fs k _ filename (le_refl _)
      (ancestorDir_long fs filename k hrooted hlen hnear hexists) hnear
      (by rw [hexists]; exact fun h => by cases h)]
    rfl
  have hparse := parseModuleName_module fs _ content name hopen hcontent hsize hname hspace
  have hdir : Dir (Join [ancestorDir (k + 1) filename, "go.mod".toList]) =
      ancestorDir (k + 1) filename := by
    rw [ancestorDir_succ]
    exact Dir_Join_name _ _ gomod_isName
  have ho : containingPackageOutcome ctxt fs dir filename =
      some (.callImport name (ancestorDir (k + 1) filename)) := by
    rw [containingPackageOutcome_fallback ctxt fs dir filename
      (by rw [hres]; exact hroots), hres]
    unfold gomodFallback
    rw [hfind]
    simp only [Bool.not_true, Bool.false_eq_true, if_false]
    rw [hparse, hdir]
  exact ⟨ho, ContainingPackage_of_callImport ctxt fs dir filename _ _ ho⟩

/-- C2 as amended, at the two files of the repository's module test, the go.mod
having further lines after the first: both resolve to the module
`golang.org/examples/hello` with search base `/tmp/hello`. -/
theorem ContainingPackage_gomod_witness :
    ContainingPackage (plainContext ["/gopath/src".toList] echoImport) gomodTestFS
      "/tmp/hello".toList "/tmp/hello/hello.go".toList =
        some (some ⟨"golang.org/examples/hello".toList, "/tmp/hello".toList, []⟩, none) ∧
    ContainingPackage (plainContext ["/gopath/src".toList] echoImport) gomodTestFS
      "/tmp/hello".toList "/tmp/hello/internal/hello.go".toList =
        some (some ⟨"golang.org/examples/hello".toList, "/tmp/hello".toList, []⟩, none) :=
  ⟨(ContainingPackage_gomod (plainContext ["/gopath/src".toList] echoImport) gomodTestFS
      "/tmp/hello".toList "/tmp/hello/hello.go".toList 0
      "module golang.org/examples/hello\n\ngo 1.12\n".toList
      "golang.org/examples/hello".toList
      (by decide) (by decide) (by decide) (by decide) (by decide) (by decide) rfl
      (Or.inl ⟨"\ngo 1.12\n".toList, by decide⟩) (by decide) (by decide) (by decide)).2,
   (ContainingPackage_gomod (plainContext ["/gopath/src".toList] echoImport) gomodTestFS
      "/tmp/hello".toList "/tmp/hello/internal/hello.go".toList 1
      "module golang.org/examples/hello\n\ngo 1.12\n".toList
      "golang.org/examples/hello".toList
      (by decide) (by decide) (by decide) (by decide) (by decide) (by decide) rfl
      (Or.inl ⟨"\ngo 1.12\n".toList, by decide⟩) (by decide) (by decide) (by decide)).2⟩

/-- C2 as stated, refuted at concrete inputs.  First: `/a/go.mod` exists with
the first line `module example.com/m` and is the nearest go.mod of `/a/b/c.go`,
but `/a/b` is a regular file, `os.Stat` of `/a/b/go.mod` fails with an error
other than not-exist, and the result is a parse error, not the lookup of
`example.com/m` from `/a`.  Second: for the filename `/`, with a go.mod in the
root directory, no directory is searched and the go.mod is reported missing.
Third: the go.mod of `/p` is the single line `module` followed by a name of
65536 letters, and reading it fails because the line is longer than the
scanner's buffer. -/
theorem ContainingPackage_gomod_missed :
    notDirModuleFS.stat "/a/b/go.mod".toList = StatResult.failed ∧
    notDirModuleFS.stat "/a/go.mod".toList = StatResult.found ∧
    notDirModuleFS.openFile "/a/go.mod".toList =
      .ok ("module example.com/m\n".toList, none) ∧
    ContainingPackage (plainContext ["/gopath/src".toList] echoImport) notDirModuleFS
      "/a/b".toList "/a/b/c.go".toList =
        some (none, some ("go module fallback: failed to parse module name: ".toList ++
          "open /a/b/go.mod: not a directory".toList)) ∧
    rootModuleFS.stat "/go.mod".toList = StatResult.found ∧
    rootModuleFS.openFile "/go.mod".toList = .ok ("module example.com/m\n".toList, none) ∧
    IsAbsPath (plainContext ["/gopath/src".toList] echoImport) "/".toList = true ∧
    ContainingPackage (plainContext ["/gopath/src".toList] echoImport) rootModuleFS
      "/".toList "/".toList =
        some (none, some "go module fallback: failed to find go.mod".toList) ∧
    longLineFS.stat "/p/go.mod".toList = StatResult.found ∧
    longLineFS.openFile "/p/go.mod".toList = .ok (longLine, none) ∧
    ContainingPackage (plainContext ["/gopath/src".toList] echoImport) longLineFS
      "/p".toList "/p/x.go".toList =
        some (none, some ("go module fallback: failed to parse module name: ".toList ++
          ("failed to read go.mod file first line: ".toList ++
            "bufio.Scanner: token too long".toList))) := by
  refine ⟨by decide, by decide, rfl, by decide, by decide, rfl, by decide, by decide,
    rfl, rfl, ?_⟩
  have ho : containingPackageOutcome (plainContext ["/gopath/src".toList] echoImport)
      longLineFS "/p".toList "/p/x.go".toList =
      gomodFallback longLineFS "/p/x.go".toList :=
    containingPackageOutcome_fallback _ longLineFS "/p".toList "/p/x.go".toList (by decide)
  have hf : findGomodFile longLineFS "/p/x.go".toList =
      some ("/p/go.mod".toList, true) := by decide
  apply ContainingPackage_of_fail
  rw [ho]
  unfold gomodFallback
  rw [hf]
  simp only [Bool.not_true, Bool.false_eq_true, if_false]
  rw [parseModuleName_longLineFS]

/-! ## The source-root loop -/

theorem ToSlash_unix (s : Str) : ToSlash '/' s = s := by
  simp [ToSlash]

/-- C1: on a Unix host, for a build context without a `HasSubdir` hook, a source
root `R` of `ctxt.SrcDirs()` and an absolute filename `R/p/f`, where `p` is a
non-empty sequence of plain directory names joined by slashes and `HasSubdir`
fails for every root listed before `R`, `ContainingPackage` returns the result
of the backend lookup of `p` from the working directory `dir`. -/
theorem ContainingPackage_under_root (ctxt : Context) (fs : FileSystem) (dir : Str)
    (before : List Str) (R : Str) (after names : List Str) (f : Str)
    (hctx : ctxt.HasSubdir = none)
    (hsrc : ctxt.SrcDirs = before ++ R :: after)
    (hR : isRooted '/' R = true)
    (hnames : names ≠ []) (hname : ∀ e ∈ names, IsName (IsPathSeparator '/') e)
    (hf : ∀ c ∈ f, c ≠ '/')
    (habs : IsAbsPath ctxt (R ++ '/' :: (joinElems '/' names ++ '/' :: f)) = true)
    (hbefore : ∀ r ∈ before,
      (HasSubdir '/' ctxt fs (ToSlash '/' r ++ ['/'])
        (pathDir (ToSlash '/' (R ++ '/' :: (joinElems '/' names ++ '/' :: f))) ++ ['/'])).2
          = false) :
    containingPackageOutcome ctxt fs dir
        (R ++ '/' :: (joinElems '/' names ++ '/' :: f)) =
      some (.callImport (joinElems '/' names) dir) ∧
    ContainingPackage ctxt fs dir (R ++ '/' :: (joinElems '/' names ++ '/' :: f)) =
      some (ctxt.Import (joinElems '/' names) dir) := by
  have hRne : R ≠ [] := by
    rintro rfl
    simp [isRooted] at hR
  have hres : resolveFilename ctxt dir
      (R ++ '/' :: (joinElems '/' names ++ '/' :: f)) =
      R ++ '/' :: (joinElems '/' names ++ '/' :: f) := by
    simp [resolveFilename, habs]
  have hfile : R ++ '/' :: (joinElems '/' names ++ '/' :: f) =
      (R ++ '/' :: joinElems '/' names) ++ '/' :: f := by simp
  have hpd : pathDir (R ++ '/' :: (joinElems '/' names ++ '/' :: f)) =
      Clean '/' (R ++ '/' :: joinElems '/' names) := by
    rw [hfile]
    exact pathDir_file _ f (by simp) hf
  have hX := Clean_root_names '/' (by decide) R names hR hnames hname
  have hsub : hasSubdir '/' (R ++ ['/']) (Clean '/' (R ++ '/' :: joinElems '/' names) ++ ['/']) =
      (joinElems '/' names, true) := by
    rw [hasSubdir_ok_iff]
    refine ⟨joinElems '/' names, ?_, (ToSlash_unix _).symm⟩
    rw [Clean_append_sep '/' _ '/' (Clean_ne_nil '/' _) (by decide),
      Clean_idem '/' (by decide), hX,
      rootWithSep_eq_of_Clean_eq '/' (R ++ ['/']) R
        (Clean_append_sep '/' R '/' hRne (by decide))]
  have hHas : HasSubdir '/' ctxt fs (ToSlash '/' R ++ ['/'])
      (pathDir (ToSlash '/' (R ++ '/' :: (joinElems '/' names ++ '/' :: f))) ++ ['/']) =
      (joinElems '/' names, true) := by
    rw [ToSlash_unix, ToSlash_unix, hpd, HasSubdir_of_none '/' ctxt fs _ _ hctx, hsub]
    rfl
  have ho : containingPackageOutcome ctxt fs dir
      (R ++ '/' :: (joinElems '/' names ++ '/' :: f)) =
      some (.callImport (joinElems '/' names) dir) := by
    unfold containingPackageOutcome
    simp only [hres]
    rw [hsrc]
    rw [srcRootLoop_first '/' ctxt fs _ before R after (joinElems '/' names) hbefore hHas]
  exact ⟨ho, ContainingPackage_of_callImport ctxt fs dir _ _ _ ho⟩

/-- C1, at the end-to-end scenario: roots `/goroot/src` and `/gopath/src`, file
`/gopath/src/a/b/c.go`, import path `a/b`. -/
theorem ContainingPackage_under_root_witness :
    ContainingPackage
      (plainContext ["/goroot/src".toList, "/gopath/src".toList] echoImport) emptyFS
      "/work".toList "/gopath/src/a/b/c.go".toList =
        some (some ⟨"a/b".toList, "/work".toList, []⟩, none) :=
  (ContainingPackage_under_root
    (plainContext ["/goroot/src".toList, "/gopath/src".toList] echoImport) emptyFS
    "/work".toList ["/goroot/src".toList] "/gopath/src".toList [] ["a".toList, "b".toList]
    "c.go".toList rfl rfl (by decide) (by decide)
    (by decide) (by decide) (by decide) (by decide)).2
end Buildutil
